import Mathlib

/-!
Verification of the string/HTML utility layer and form validation of the
Indico repository excerpt.

The repository ships `indico/util/string_test.py` (the unit-test suite for
`indico.util.string`) and `indico/modules/categories/forms.py`.  The module
`indico/util/string.py` itself is not part of the excerpt, so every utility
function below is modelled from the specification (spec.md §4), with the
in-repository unit tests used as the binding reference for concrete
behaviour.  `validate_entries` is translated directly from
`indico/modules/categories/forms.py`.

All string-processing functions work on `List Char` (the underlying data of
Lean's `String`) and are fully executable, so each one can be evaluated on
the concrete inputs appearing in `string_test.py`.
-/

set_option maxHeartbeats 1600000

namespace IndicoSpec

/-! ## ASCII character helpers

Python's `str` methods used by the utilities (`lower`, `upper`, `title`,
`isdigit`, ...) act on ASCII letters for all inputs exercised here; these
helpers model exactly that ASCII behaviour on code points. -/

def isLowerA (c : Char) : Bool := 97 ≤ c.toNat && c.toNat ≤ 122

def isUpperA (c : Char) : Bool := 65 ≤ c.toNat && c.toNat ≤ 90

def isDigitA (c : Char) : Bool := 48 ≤ c.toNat && c.toNat ≤ 57

def isAlphaA (c : Char) : Bool := isUpperA c || isLowerA c

def isAlnumA (c : Char) : Bool := isAlphaA c || isDigitA c

def toLowerA (c : Char) : Char := if isUpperA c then Char.ofNat (c.toNat + 32) else c

def toUpperA (c : Char) : Char := if isLowerA c then Char.ofNat (c.toNat - 32) else c

/-- Whitespace as matched by the `\s` class in the regexes being modelled. -/
def isWsB (c : Char) : Bool := c = ' ' || c = '\t' || c = '\n' || c = '\r'

def lowerize (l : List Char) : List Char := l.map toLowerA

theorem toNat_ofNat_valid (n : Nat) (h : n < 55296) : (Char.ofNat n).toNat = n := by
  have hv : n.isValidChar := Or.inl h
  simp [Char.ofNat, dif_pos hv, Char.ofNatAux, Char.toNat, UInt32.toNat]

theorem toNat_inj {c d : Char} (h : c.toNat = d.toNat) : c = d := by
  have hc := Char.ofNat_toNat c
  rw [h, Char.ofNat_toNat] at hc
  exact hc.symm

theorem toLowerA_of_upper (c : Char) (h : isUpperA c = true) :
    toLowerA c = Char.ofNat (c.toNat + 32) := by
  simp [toLowerA, h]

theorem toLowerA_of_not_upper (c : Char) (h : isUpperA c = false) : toLowerA c = c := by
  simp [toLowerA, h]

theorem toUpperA_of_lower (c : Char) (h : isLowerA c = true) :
    toUpperA c = Char.ofNat (c.toNat - 32) := by
  simp [toUpperA, h]

theorem upperA_bounds {c : Char} (h : isUpperA c = true) : 65 ≤ c.toNat ∧ c.toNat ≤ 90 := by
  simpa [isUpperA] using h

theorem lowerA_bounds {c : Char} (h : isLowerA c = true) : 97 ≤ c.toNat ∧ c.toNat ≤ 122 := by
  simpa [isLowerA] using h

theorem digitA_bounds {c : Char} (h : isDigitA c = true) : 48 ≤ c.toNat ∧ c.toNat ≤ 57 := by
  simpa [isDigitA] using h

theorem isUpperA_toLowerA (c : Char) (h : isUpperA c = true) : isLowerA (toLowerA c) = true := by
  obtain ⟨h1, h2⟩ := upperA_bounds h
  rw [toLowerA_of_upper c h]
  simp only [isLowerA, toNat_ofNat_valid (c.toNat + 32) (by omega)]
  simp; omega

theorem toLowerA_toUpperA (c : Char) (h : isLowerA c = true) : toLowerA (toUpperA c) = c := by
  obtain ⟨h1, h2⟩ := lowerA_bounds h
  rw [toUpperA_of_lower c h]
  have hu : isUpperA (Char.ofNat (c.toNat - 32)) = true := by
    simp only [isUpperA, toNat_ofNat_valid (c.toNat - 32) (by omega)]
    simp; omega
  rw [toLowerA_of_upper _ hu]
  apply toNat_inj
  rw [toNat_ofNat_valid (c.toNat - 32) (by omega)]
  rw [toNat_ofNat_valid (c.toNat - 32 + 32) (by omega)]
  omega

theorem isUpperA_toUpperA (c : Char) (h : isLowerA c = true) : isUpperA (toUpperA c) = true := by
  obtain ⟨h1, h2⟩ := lowerA_bounds h
  rw [toUpperA_of_lower c h]
  simp only [isUpperA, toNat_ofNat_valid (c.toNat - 32) (by omega)]
  simp; omega

theorem toLowerA_of_lower (c : Char) (h : isLowerA c = true) : toLowerA c = c := by
  obtain ⟨h1, h2⟩ := lowerA_bounds h
  apply toLowerA_of_not_upper
  simp [isUpperA]; omega

theorem not_upper_of_lower {c : Char} (h : isLowerA c = true) : isUpperA c = false := by
  obtain ⟨h1, h2⟩ := lowerA_bounds h
  simp [isUpperA]; omega

theorem not_lower_of_upper {c : Char} (h : isUpperA c = true) : isLowerA c = false := by
  obtain ⟨h1, h2⟩ := upperA_bounds h
  simp [isLowerA]; omega

theorem toLowerA_of_digit (c : Char) (h : isDigitA c = true) : toLowerA c = c := by
  obtain ⟨h1, h2⟩ := digitA_bounds h
  apply toLowerA_of_not_upper
  simp [isUpperA]; omega

theorem isDigitA_toLowerA (c : Char) (h : isDigitA c = true) : isDigitA (toLowerA c) = true := by
  rw [toLowerA_of_digit c h]; exact h

/-! ## `sanitize_email` (spec.md §4.6)

Modelled from the spec: `indico/util/string.py` is absent from the sources.
Per spec.md §4.6 and the behaviour fixed by `test_sanitize_email`
(`string_test.py:187-196`), the function looks for an angle-bracket-wrapped
fragment (the regex `<([^>]+)>`, leftmost match) and returns its content;
with no such fragment the input is returned as is. -/

/-- Content of `[^>]+` up to the first `>` of the list, `none` when the list
has no `>` at all. -/
def takeUntilGt : List Char → Option (List Char)
  | [] => none
  | c :: rest => if c = '>' then some [] else (takeUntilGt rest).map (c :: ·)

/-- Leftmost match of `<([^>]+)>`: the first `<` that is followed by at least
one non-`>` character and then a `>`. -/
def findAngleGroup : List Char → Option (List Char)
  | [] => none
  | c :: rest =>
      if c = '<' then
        match takeUntilGt rest with
        | some [] => findAngleGroup rest
        | some g => some g
        | none => findAngleGroup rest
      else findAngleGroup rest

/-- Modelled from the spec: `sanitize_email` from the missing
`indico/util/string.py`, behaviour per spec.md §4.6 restricted by
`test_sanitize_email`. -/
def sanitize_email (s : String) : String :=
  if '<' ∈ s.data then
    match findAngleGroup s.data with
    | some g => String.mk g
    | none => s
  else s

theorem findAngleGroup_no_lt (l : List Char) (h : '<' ∉ l) : findAngleGroup l = none := by
  induction l with
  | nil => rfl
  | cons c rest ih =>
      have hc : c ≠ '<' := fun hc => h (hc ▸ List.mem_cons_self c rest)
      have hr : '<' ∉ rest := fun hm => h (List.mem_cons_of_mem c hm)
      simp [findAngleGroup, hc, ih hr]

theorem takeUntilGt_closed (g rest : List Char) (hg : '>' ∉ g) :
    takeUntilGt (g ++ '>' :: rest) = some g := by
  induction g with
  | nil => simp [takeUntilGt]
  | cons c t ih =>
      have hc : c ≠ '>' := fun hc => hg (hc ▸ List.mem_cons_self c t)
      have ht : '>' ∉ t := fun hm => hg (List.mem_cons_of_mem c hm)
      simp [takeUntilGt, hc, ih ht]

theorem findAngleGroup_closed (pre g post : List Char) (hpre : '<' ∉ pre)
    (hg : '>' ∉ g) (hne : g ≠ []) :
    findAngleGroup (pre ++ '<' :: g ++ '>' :: post) = some g := by
  induction pre with
  | nil =>
      simp only [List.nil_append, findAngleGroup, if_pos rfl, List.append_eq]
      rw [takeUntilGt_closed g post hg]
      cases g with
      | nil => exact absurd rfl hne
      | cons c t => rfl
  | cons c t ih =>
      have hc : c ≠ '<' := fun hc => hpre (hc ▸ List.mem_cons_self c t)
      have ht : '<' ∉ t := fun hm => hpre (List.mem_cons_of_mem c hm)
      simpa [findAngleGroup, hc] using ih ht

/-! ## `camelize` / `snakify` (spec.md §4.2)

Modelled from the spec: `indico/util/string.py` is absent from the sources.
`camelize` splits its input on underscores, keeps the first segment, and
title-cases every later segment, with the special case that a later segment
spelling "url" (in any case orientation) becomes the literal "URL"; a
leading underscore is preserved as a literal prefix.  `snakify` inserts an
underscore before each uppercase letter that follows a lowercase letter or
starts a new capitalized run (consecutive uppercase letters are one unit)
and then lowercases everything.  Concrete behaviour is fixed by
`test_camelize`, `test_camelize_keys` and `test_snakify`
(`string_test.py:110-155`); `camelize_keys`/`snakify_keys` apply these
functions to every mapping key and are not modelled separately. -/

/-- `str.split(sep)` for a one-character separator. -/
def splitOnChar (sep : Char) : List Char → List (List Char)
  | [] => [[]]
  | c :: rest =>
      if c = sep then [] :: splitOnChar sep rest
      else
        match splitOnChar sep rest with
        | [] => [[c]]
        | p :: ps => (c :: p) :: ps

/-- Join segments with a one-character separator (inverse of `splitOnChar`). -/
def joinChar (sep : Char) : List (List Char) → List Char
  | [] => []
  | [s] => s
  | s :: rest => s ++ sep :: joinChar sep rest

/-- Title-case one non-initial segment, with the "url" → "URL" special case. -/
def camelizeSegment (seg : List Char) : List Char :=
  if lowerize seg = ['u', 'r', 'l'] then ['U', 'R', 'L']
  else
    match seg with
    | [] => []
    | c :: rest => toUpperA c :: lowerize rest

/-- First segment verbatim, later segments via `camelizeSegment`. -/
def camelizeParts : List (List Char) → List Char
  | [] => []
  | p :: ps => p ++ (ps.map camelizeSegment).flatten

def camelizeList (l : List Char) : List Char :=
  match l with
  | [] => []
  | c :: rest =>
      if c = '_' then '_' :: camelizeList rest
      else camelizeParts (splitOnChar '_' (c :: rest))

/-- Modelled from the spec: `camelize` from the missing
`indico/util/string.py` (spec.md §4.2, behaviour fixed by `test_camelize`
and `test_camelize_keys`). -/
def camelize (s : String) : String := String.mk (camelizeList s.data)

/-- Head test used by the capitalized-run rule of `snakify`. -/
def headIsLower : List Char → Bool
  | [] => false
  | c :: _ => isLowerA c

/-- Walk the string with the previous character at hand, inserting `_`
before each uppercase letter that follows a lowercase letter or closes an
uppercase run followed by a lowercase letter. -/
def snakeIns (prev : Char) : List Char → List Char
  | [] => []
  | c :: rest =>
      if isUpperA c && (isLowerA prev || (isUpperA prev && headIsLower rest)) then
        '_' :: c :: snakeIns c rest
      else c :: snakeIns c rest

def snakifyList : List Char → List Char
  | [] => []
  | c :: rest => lowerize (c :: snakeIns c rest)

/-- Modelled from the spec: `snakify` from the missing
`indico/util/string.py` (spec.md §4.2, behaviour fixed by `test_snakify`). -/
def snakify (s : String) : String := String.mk (snakifyList s.data)

example : camelize "_" = "_" := by decide
example : camelize "_foo_bar" = "_fooBar" := by decide
example : camelize "foo" = "foo" := by decide
example : camelize "fooBar" = "fooBar" := by decide
example : camelize "foo_bar" = "fooBar" := by decide
example : camelize "aa_bb_cC" = "aaBbCc" := by decide
example : camelize "avatar_url" = "avatarURL" := by decide
example : camelize "upload_url_materials" = "uploadURLMaterials" := by decide
example : camelize "url_download" = "urlDownload" := by decide
example : camelize "saveURL" = "saveURL" := by decide
example : camelize "_deleted" = "_deleted" := by decide
example : snakify "" = "" := by decide
example : snakify "FooBar" = "foo_bar" := by decide
example : snakify "fooBar" = "foo_bar" := by decide
example : snakify "fooBAR" = "foo_bar" := by decide
example : snakify "bar" = "bar" := by decide
example : snakify "Bar" = "bar" := by decide
example : snakify "aaBbCc" = "aa_bb_cc" := by decide
example : snakify "shouldBeSnakeCase" = "should_be_snake_case" := by decide

/-! ### Lemmas about `camelize`/`snakify` used by the round-trip claim -/

/-- Last element of a list, with a default for the empty list. -/
def lastD (d : Char) : List Char → Char
  | [] => d
  | c :: rest => lastD c rest

/-- A well-behaved non-initial snake_case segment: at least two characters,
all ASCII lowercase, and not the special-cased word "url". -/
def goodSeg (r : List Char) : Prop :=
  2 ≤ r.length ∧ (∀ c ∈ r, isLowerA c = true) ∧ lowerize r ≠ ['u', 'r', 'l']

theorem lowerize_of_lower (t : List Char) (h : ∀ c ∈ t, isLowerA c = true) :
    lowerize t = t := by
  induction t with
  | nil => rfl
  | cons c rest ih =>
      have hc := h c (List.mem_cons_self c rest)
      have hr : ∀ c ∈ rest, isLowerA c = true := fun x hx => h x (List.mem_cons_of_mem c hx)
      simp [lowerize] at ih ⊢
      exact ⟨toLowerA_of_lower c hc, ih hr⟩

theorem joinChar_cons_eq (sep : Char) (s : List Char) (rest : List (List Char)) :
    joinChar sep (s :: rest) = s ++ (rest.map (sep :: ·)).flatten := by
  induction rest generalizing s with
  | nil => simp [joinChar]
  | cons r rs ih => simp [joinChar, ih r]

theorem splitOnChar_no_sep (sep : Char) (s : List Char) (h : sep ∉ s) :
    splitOnChar sep s = [s] := by
  induction s with
  | nil => rfl
  | cons c rest ih =>
      have hc : c ≠ sep := fun hc => h (hc ▸ List.mem_cons_self c rest)
      have hr : sep ∉ rest := fun hm => h (List.mem_cons_of_mem c hm)
      simp [splitOnChar, hc, ih hr]

theorem splitOnChar_append (sep : Char) (s t : List Char) (h : sep ∉ s) :
    splitOnChar sep (s ++ sep :: t) = s :: splitOnChar sep t := by
  induction s with
  | nil => simp [splitOnChar]
  | cons c rest ih =>
      have hc : c ≠ sep := fun hc => h (hc ▸ List.mem_cons_self c rest)
      have hr : sep ∉ rest := fun hm => h (List.mem_cons_of_mem c hm)
      rw [List.cons_append]
      simp only [splitOnChar, if_neg hc, ih hr]

theorem splitOnChar_joinChar (sep : Char) (ss : List (List Char)) (hne : ss ≠ [])
    (h : ∀ s ∈ ss, sep ∉ s) : splitOnChar sep (joinChar sep ss) = ss := by
  induction ss with
  | nil => exact absurd rfl hne
  | cons s rest ih =>
      cases rest with
      | nil => exact splitOnChar_no_sep sep s (h s (List.mem_cons_self s []))
      | cons s₂ rs =>
          have hs : sep ∉ s := h s (List.mem_cons_self s _)
          have hrest : ∀ x ∈ s₂ :: rs, sep ∉ x := fun x hx => h x (List.mem_cons_of_mem s hx)
          rw [show joinChar sep (s :: s₂ :: rs) = s ++ sep :: joinChar sep (s₂ :: rs) from rfl]
          rw [splitOnChar_append sep s _ hs, ih (by simp) hrest]

/-- `camelize` on underscore-joined segments: the first segment appears
verbatim, every later segment through `camelizeSegment`. -/
theorem camelizeList_join (p₀ : List Char) (ps : List (List Char))
    (h0ne : p₀ ≠ []) (hnou : ∀ s ∈ p₀ :: ps, '_' ∉ s) :
    camelizeList (joinChar '_' (p₀ :: ps))
      = p₀ ++ (ps.map camelizeSegment).flatten := by
  obtain ⟨b, t₀, rfl⟩ : ∃ b t, p₀ = b :: t := by
    cases p₀ with
    | nil => exact absurd rfl h0ne
    | cons b t => exact ⟨b, t, rfl⟩
  have hb : ¬(b = '_') := fun hb' =>
    hnou (b :: t₀) (List.mem_cons_self _ _) (hb' ▸ List.mem_cons_self b t₀)
  have hjoin := joinChar_cons_eq '_' (b :: t₀) ps
  have hsplit := splitOnChar_joinChar '_' ((b :: t₀) :: ps) (by simp) hnou
  rw [hjoin, List.cons_append,
      show camelizeList (b :: (t₀ ++ (ps.map ('_' :: ·)).flatten))
        = if b = '_' then '_' :: camelizeList (t₀ ++ (ps.map ('_' :: ·)).flatten)
          else camelizeParts (splitOnChar '_' (b :: (t₀ ++ (ps.map ('_' :: ·)).flatten)))
        from rfl,
      if_neg hb, ← List.cons_append, ← hjoin, hsplit]
  rfl

theorem lower_ne_underscore {c : Char} (h : isLowerA c = true) : c ≠ '_' := by
  intro hc
  subst hc
  simp [isLowerA] at h

theorem camelizeSegment_of_good (r : List Char) (h : goodSeg r) :
    ∃ a t, r = a :: t ∧ t ≠ [] ∧ isLowerA a = true ∧ (∀ c ∈ t, isLowerA c = true) ∧
      camelizeSegment r = toUpperA a :: t := by
  obtain ⟨hlen, hlow, hurl⟩ := h
  cases r with
  | nil => simp at hlen
  | cons a t =>
      cases t with
      | nil => simp at hlen
      | cons b t' =>
          have htl : ∀ c ∈ b :: t', isLowerA c = true := fun c hc => hlow c (by simp [hc])
          refine ⟨a, b :: t', rfl, by simp, hlow a (by simp), htl, ?_⟩
          rw [show camelizeSegment (a :: b :: t')
                = if lowerize (a :: b :: t') = ['u', 'r', 'l'] then ['U', 'R', 'L']
                  else toUpperA a :: lowerize (b :: t') from rfl,
              if_neg hurl, lowerize_of_lower _ htl]

theorem snakeIns_lower_run (t : List Char) (ht : ∀ c ∈ t, isLowerA c = true) :
    ∀ (r : List Char) (prev : Char), snakeIns prev (t ++ r) = t ++ snakeIns (lastD prev t) r := by
  induction t with
  | nil => intro r prev; rfl
  | cons c cs ih =>
      intro r prev
      have hc := ht c (List.mem_cons_self c cs)
      have hcs : ∀ x ∈ cs, isLowerA x = true := fun x hx => ht x (List.mem_cons_of_mem c hx)
      rw [List.cons_append,
          show snakeIns prev (c :: (cs ++ r))
            = if isUpperA c && (isLowerA prev || (isUpperA prev && headIsLower (cs ++ r))) then
                '_' :: c :: snakeIns c (cs ++ r)
              else c :: snakeIns c (cs ++ r) from rfl]
      rw [if_neg (by simp [not_upper_of_lower hc])]
      rw [ih hcs r c]
      rfl

theorem lastD_lower {t : List Char} (ht : ∀ c ∈ t, isLowerA c = true) :
    ∀ {prev : Char}, isLowerA prev = true → isLowerA (lastD prev t) = true := by
  induction t with
  | nil => intro prev hp; exact hp
  | cons c cs ih =>
      intro prev hp
      have hc := ht c (List.mem_cons_self c cs)
      have hcs : ∀ x ∈ cs, isLowerA x = true := fun x hx => ht x (List.mem_cons_of_mem c hx)
      exact ih hcs hc

/-- Shape of a camelized non-initial segment: an uppercased lowercase letter
followed by a nonempty run of lowercase letters. -/
def camShape (cs : List Char) : Prop :=
  ∃ a t, cs = toUpperA a :: t ∧ isLowerA a = true ∧ t ≠ [] ∧ ∀ c ∈ t, isLowerA c = true

theorem snakeIns_camRun (segs : List (List Char)) :
    ∀ (prev : Char), isLowerA prev = true → (∀ cs ∈ segs, camShape cs) →
      snakeIns prev segs.flatten = (segs.map ('_' :: ·)).flatten := by
  induction segs with
  | nil => intro prev _ _; rfl
  | cons cs more ih =>
      intro prev hprev hsh
      have hmore : ∀ x ∈ more, camShape x := fun x hx => hsh x (List.mem_cons_of_mem cs hx)
      obtain ⟨a, t, rfl, ha, htne, htl⟩ := hsh cs (List.mem_cons_self cs more)
      rw [List.flatten_cons, List.cons_append,
          show snakeIns prev (toUpperA a :: (t ++ more.flatten))
            = if isUpperA (toUpperA a)
                 && (isLowerA prev || (isUpperA prev && headIsLower (t ++ more.flatten))) then
                '_' :: toUpperA a :: snakeIns (toUpperA a) (t ++ more.flatten)
              else toUpperA a :: snakeIns (toUpperA a) (t ++ more.flatten) from rfl]
      rw [if_pos (by simp [isUpperA_toUpperA a ha, hprev])]
      rw [snakeIns_lower_run t htl more.flatten (toUpperA a)]
      have hlast : isLowerA (lastD (toUpperA a) t) = true := by
        cases t with
        | nil => exact absurd rfl htne
        | cons b bs =>
            exact lastD_lower (fun x hx => htl x (List.mem_cons_of_mem b hx))
              (htl b (List.mem_cons_self b bs))
      rw [ih (lastD (toUpperA a) t) hlast hmore]
      simp

theorem lowerize_camFlat (rest : List (List Char)) (hr : ∀ r ∈ rest, goodSeg r) :
    lowerize (((rest.map camelizeSegment).map ('_' :: ·)).flatten)
      = (rest.map ('_' :: ·)).flatten := by
  induction rest with
  | nil => rfl
  | cons r more ih =>
      have hmore : ∀ x ∈ more, goodSeg x := fun x hx => hr x (List.mem_cons_of_mem r hx)
      obtain ⟨a, t, hrat, htne, ha, htl, hce⟩ :=
        camelizeSegment_of_good r (hr r (List.mem_cons_self r more))
      have ihm := ih hmore
      simp only [List.map_cons, List.flatten_cons, lowerize, List.map_append] at ihm ⊢
      rw [hce, ihm]
      have hseg : List.map toLowerA ('_' :: toUpperA a :: t) = '_' :: a :: t := by
        simp only [List.map_cons]
        rw [show toLowerA '_' = '_' by decide, toLowerA_toUpperA a ha,
            show List.map toLowerA t = lowerize t from rfl, lowerize_of_lower t htl]
      simpa [hrat] using congrArg (· ++ (List.map (fun x => '_' :: x) more).flatten) hseg

/-! ## `slugify` (spec.md §4.1)

Modelled from the spec: `indico/util/string.py` is absent from the sources.
The fragments are joined with `-`, accented Latin letters are transliterated
to ASCII digraphs, characters other than alphanumerics/whitespace/hyphens
are removed (behaviour fixed by `test_slugify`'s `'12345!xxx   '` →
`'12345xxx'` row, which deletes the `!` rather than hyphenating it), runs of
whitespace/hyphens collapse to a single hyphen, outer hyphens are stripped,
the result is optionally lowercased and finally truncated to exactly
`maxlen` characters when a maximum length is given. -/

/-- German-umlaut style transliteration table used by the tests
(`ä`→`ae`, `ö`→`oe`, `ü`→`ue`, upper-case variants, `ß`→`ss`). -/
def translitChar (c : Char) : List Char :=
  if c = 'ä' then ['a', 'e']
  else if c = 'ö' then ['o', 'e']
  else if c = 'ü' then ['u', 'e']
  else if c = 'Ä' then ['A', 'e']
  else if c = 'Ö' then ['O', 'e']
  else if c = 'Ü' then ['U', 'e']
  else if c = 'ß' then ['s', 's']
  else [c]

/-- A separator-ish character: whitespace or hyphen (the `[-\s]` class). -/
def isSepB (c : Char) : Bool := isWsB c || c = '-'

/-- Collapse every run of separator characters to a single hyphen. -/
def collapseSeps : List Char → List Char
  | [] => []
  | [c] => if isSepB c then ['-'] else [c]
  | c :: d :: rest =>
      if isSepB c && isSepB d then collapseSeps (d :: rest)
      else (if isSepB c then '-' else c) :: collapseSeps (d :: rest)

def stripHyphens (l : List Char) : List Char :=
  ((l.dropWhile (· = '-')).reverse.dropWhile (· = '-')).reverse

/-- The kept-and-collapsed slug characters before optional lowercasing. -/
def slugBase (parts : List (List Char)) : List Char :=
  stripHyphens (collapseSeps
    (((joinChar '-' parts).flatMap translitChar).filter (fun c => isAlnumA c || isSepB c)))

/-- The untruncated slug of the already-stringified fragments. -/
def slugifyCore (parts : List (List Char)) (lower : Bool) : List Char :=
  if lower then lowerize (slugBase parts) else slugBase parts

/-- Modelled from the spec: `slugify` from the missing
`indico/util/string.py` (spec.md §4.1, behaviour fixed by `test_slugify`,
`test_slugify_maxlen`, `test_slugify_args` and `test_slugify_lower`). -/
def slugify (parts : List String) (lower : Bool) (maxlen : Option Nat) : String :=
  let base := slugifyCore (parts.map String.data) lower
  match maxlen with
  | none => String.mk base
  | some m => String.mk (base.take m)

example : slugify ["this is a    test"] true none = "this-is-a-test" := by decide
example : slugify ["this is ä    test"] true none = "this-is-ae-test" := by decide
example : slugify ["12345!xxx   "] true none = "12345xxx" := by decide
example : slugify ["foo bar"] true (some 5) = "foo-b" := by decide
example : slugify ["foo", "123", "bar"] true none = "foo-123-bar" := by decide
example : slugify ["möp", "123", "bär"] true none = "moep-123-baer" := by decide
example : slugify ["Test"] true none = "test" := by decide
example : slugify ["Test"] false none = "Test" := by decide
example : slugify ["mÖp"] false none = "mOep" := by decide
example : slugify ["mÖp"] true none = "moep" := by decide

/-! ## `text_to_repr` (`string_test.py:74-84`)

Modelled from the spec: `indico/util/string.py` is absent from the sources
and spec.md does not describe `text_to_repr`; the model is reconstructed
from `test_text_to_repr`.  Whitespace runs collapse to single spaces, outer
whitespace is stripped and, when a maximum length is given, longer texts are
cut at `max_length` characters and get a literal `'...'` appended.  The
`html=True` branch (which first strips tags) is outside the claims and not
modelled. -/

/-- Collapse every whitespace run to a single space (`re.sub(r'\s+', ' ')`). -/
def collapseWs : List Char → List Char
  | [] => []
  | [c] => if isWsB c then [' '] else [c]
  | c :: d :: rest =>
      if isWsB c && isWsB d then collapseWs (d :: rest)
      else (if isWsB c then ' ' else c) :: collapseWs (d :: rest)

def stripWs (l : List Char) : List Char :=
  ((l.dropWhile isWsB).reverse.dropWhile isWsB).reverse

/-- `truncate`: unchanged when within the limit, otherwise the first
`max_length` characters followed by `'...'`. -/
def truncateRepr (n : Nat) (l : List Char) : List Char :=
  if l.length > n then l.take n ++ ['.', '.', '.'] else l

/-- Modelled from the spec: `text_to_repr` (html=False) from the missing
`indico/util/string.py`, reconstructed from `test_text_to_repr`. -/
def text_to_repr (s : String) (maxLength : Option Nat) : String :=
  let t := stripWs (collapseWs s.data)
  match maxLength with
  | none => String.mk t
  | some n => String.mk (truncateRepr n t)

example : text_to_repr "Hello\n  \tWorld" none = "Hello World" := by decide
example : text_to_repr (String.mk (List.replicate 60 'x')) none
    = String.mk (List.replicate 60 'x') := by decide
example : text_to_repr (String.mk (List.replicate 60 'x')) (some 50)
    = String.mk (List.replicate 50 'x' ++ ['.', '.', '.']) := by decide
example : text_to_repr (String.mk (List.replicate 50 'x')) (some 50)
    = String.mk (List.replicate 50 'x') := by decide

/-! ## `sanitize_html` (spec.md §4.3)

Modelled from the spec: `indico/util/string.py` is absent from the sources.
Per spec.md §4.3 and §9, sanitization is parse → filter against a
tag/attribute allow-list → serialize.  The model follows the token-stream
architecture of the sanitizer the spec describes: a tokenizer producing
text characters and open/close tag tokens, a filter that keeps allow-listed
tags (escaping disallowed ones and stray `<`/`>` as entity text), filters
`style` attributes against a small CSS property allow-list while converting
`&quot;` entities inside them to literal double quotes, and a serializer
that single-quotes attribute values containing a double quote.  Concrete
behaviour is fixed by `test_sanitize_html_imagemaps` and
`test_sanitize_html_escaped_quotes` (`string_test.py:240-278`). -/

/-- The single-quote character (code point 39). -/
def squote : Char := Char.ofNat 39

inductive Tok where
  | ch (c : Char)
  | tagOpen (name : List Char) (attrs : List (List Char × List Char))
  | tagClose (name : List Char)
  deriving DecidableEq

/-- Characters allowed in an element name. -/
def isNameChar (c : Char) : Bool := isAlphaA c || isDigitA c || c = '-'

/-- Characters consumed as part of an attribute name (everything except
whitespace, `=`, `>`, `/` and quotes). -/
def isAttrNameChar (c : Char) : Bool :=
  !(isWsB c || c = '=' || c = '>' || c = '/' || c = '"' || c = squote)

/-- Characters consumed by an unquoted attribute value. -/
def isBareValChar (c : Char) : Bool := !(isWsB c || c = '>')

/-- Read a quoted attribute value up to the closing quote `q`; returns the
value and the remainder after the quote. -/
def readQuoted (q : Char) : (l : List Char) →
    Option {p : List Char × List Char // p.2.length < l.length}
  | [] => none
  | c :: rest =>
      if c = q then some ⟨([], rest), by simp⟩
      else
        match readQuoted q rest with
        | some ⟨(v, r), h⟩ => some ⟨(c :: v, r), by simp at h ⊢; omega⟩
        | none => none

theorem length_dropWhile_le (p : Char → Bool) (l : List Char) :
    (l.dropWhile p).length ≤ l.length :=
  (List.dropWhile_sublist p).length_le

/-- Read the attribute section of an open tag up to the closing `>`.
Attribute names are lowercased; quoted values keep their content verbatim,
unquoted values run to the next whitespace or `>`; stray `/` and
whitespace are skipped. Fails when the input ends before a `>`. -/
def readAttrs : (l : List Char) →
    Option {p : List (List Char × List Char) × List Char // p.2.length < l.length}
  | [] => none
  | c :: rest =>
      if c = '>' then some ⟨([], rest), by simp⟩
      else if isWsB c || c = '/' then
        match readAttrs rest with
        | some ⟨(as, r), h⟩ => some ⟨(as, r), by simp at h ⊢; omega⟩
        | none => none
      else if isAttrNameChar c then
        match hr : rest.dropWhile isAttrNameChar with
        | '=' :: r1 =>
            match r1 with
            | q :: r2 =>
                if q = '"' || q = squote then
                  match readQuoted q r2 with
                  | some ⟨(v, r3), h3⟩ =>
                      match readAttrs r3 with
                      | some ⟨(as, r4), h4⟩ =>
                          some ⟨((lowerize (c :: rest.takeWhile isAttrNameChar), v) :: as, r4), by
                            have h5 := length_dropWhile_le isAttrNameChar rest
                            rw [hr] at h5
                            simp at h3 h4 h5 ⊢
                            omega⟩
                      | none => none
                  | none => none
                else
                  match readAttrs ((q :: r2).dropWhile isBareValChar) with
                  | some ⟨(as, r4), h4⟩ =>
                      some ⟨((lowerize (c :: rest.takeWhile isAttrNameChar),
                               (q :: r2).takeWhile isBareValChar) :: as, r4), by
                        have h5 := length_dropWhile_le isAttrNameChar rest
                        have h6 := length_dropWhile_le isBareValChar (q :: r2)
                        rw [hr] at h5
                        simp at h4 h5 h6 ⊢
                        omega⟩
                  | none => none
            | [] => none
        | r1 =>
            match readAttrs r1 with
            | some ⟨(as, r4), h4⟩ =>
                some ⟨((lowerize (c :: rest.takeWhile isAttrNameChar), []) :: as, r4), by
                  have h5 := length_dropWhile_le isAttrNameChar rest
                  rw [hr] at h5
                  simp at h4 ⊢
                  omega⟩
            | none => none
      else
        match readAttrs rest with
        | some ⟨(as, r), h⟩ => some ⟨(as, r), by simp at h ⊢; omega⟩
        | none => none
termination_by l => l.length
decreasing_by
  all_goals simp_wf
  · have h5 := length_dropWhile_le isAttrNameChar rest
    have h3' : r3.length < r2.length := h3
    rw [hr] at h5
    simp only [List.length_cons] at h5
    omega
  · have h5 := length_dropWhile_le isAttrNameChar rest
    have h6 := length_dropWhile_le isBareValChar (q :: r2)
    rw [hr] at h5
    simp only [List.length_cons] at h5 h6
    omega
  · have h5 := length_dropWhile_le isAttrNameChar rest
    rw [hr] at h5
    omega

/-- Read one tag after a `<`.  An open tag is a letter-initial name followed
by attributes; a close tag is `/`, a letter-initial name, optional
whitespace and `>`.  Names are lowercased. -/
def readTag (l : List Char) : Option {p : Tok × List Char // p.2.length < l.length} :=
  match l with
  | [] => none
  | c :: rest =>
      if c = '/' then
        match rest with
        | c2 :: rest2 =>
            if isAlphaA c2 then
              match hd : (rest2.dropWhile isNameChar).dropWhile isWsB with
              | '>' :: r =>
                  some ⟨(.tagClose (lowerize (c2 :: rest2.takeWhile isNameChar)), r), by
                    have h5 := length_dropWhile_le isNameChar rest2
                    have h6 := length_dropWhile_le isWsB (rest2.dropWhile isNameChar)
                    rw [hd] at h6
                    simp at h5 h6 ⊢
                    omega⟩
              | _ => none
            else none
        | [] => none
      else if isAlphaA c then
        match readAttrs (rest.dropWhile isNameChar) with
        | some ⟨(attrs, r), h⟩ =>
            some ⟨(.tagOpen (lowerize (c :: rest.takeWhile isNameChar)) attrs, r), by
              have h5 := length_dropWhile_le isNameChar rest
              simp at h h5 ⊢
              omega⟩
        | none => none
      else none

/-- Tokenize an HTML fragment: `<` tries to read a tag and falls back to a
plain character, everything else is a plain character. -/
def tokenize : List Char → List Tok
  | [] => []
  | c :: rest =>
      if c = '<' then
        match readTag rest with
        | some ⟨(t, r), h⟩ => t :: tokenize r
        | none => .ch '<' :: tokenize rest
      else .ch c :: tokenize rest
termination_by l => l.length
decreasing_by
  all_goals simp_wf
  all_goals try simp at h
  all_goals omega

/-! ### CSS filtering of `style` attribute values -/

/-- Split a declaration at its first `:`. -/
def splitColon : List Char → Option (List Char × List Char)
  | [] => none
  | c :: rest =>
      if c = ':' then some ([], rest)
      else (splitColon rest).map (fun p => (c :: p.1, p.2))

def trimWs (l : List Char) : List Char :=
  ((l.dropWhile isWsB).reverse.dropWhile isWsB).reverse

/-- Replace every `&quot;` entity by a literal double quote. -/
def replaceQuotEnt : List Char → List Char
  | [] => []
  | '&' :: 'q' :: 'u' :: 'o' :: 't' :: ';' :: rest => '"' :: replaceQuotEnt rest
  | c :: rest => c :: replaceQuotEnt rest

/-- The safe CSS property allow-list (spec.md §4.3 names `text-align` as the
example; `font-family` and `font-size` are fixed by
`test_sanitize_html_escaped_quotes` and `test_markdown_sanitize_css`). -/
def allowedStyles : List (List Char) :=
  ["text-align", "font-family", "font-size"].map String.data

def styleName : List Char := "style".data

/-- Keep a declaration when its property is allow-listed and its value is
free of single quotes and of `&` (allow-list sanitization of values). -/
def cssDecl (d : List Char) : Option (List Char × List Char) :=
  match splitColon d with
  | none => none
  | some (p, v) =>
      if trimWs p ∈ allowedStyles ∧ squote ∉ v ∧ '&' ∉ v then some (trimWs p, v) else none

def cssSer (pv : List Char × List Char) : List Char := pv.1 ++ ':' :: pv.2 ++ [';']

/-- Normalized form of a `style` attribute value: `&quot;` entities become
double quotes, declarations are split at `;`, filtered through `cssDecl`
and re-serialized as `prop:value;` runs. -/
def cssNormalize (v : List Char) : List Char :=
  (((splitOnChar ';' (replaceQuotEnt v)).filterMap cssDecl).map cssSer).flatten

/-! ### Filtering and serialization -/

/-- Escape a text character (`<` and `>` become entities). -/
def escTextChar (c : Char) : List Char :=
  if c = '<' then "&lt;".data else if c = '>' then "&gt;".data else [c]

def escText (l : List Char) : List Char := l.flatMap escTextChar

/-- Escape double quotes in a non-`style` attribute value. -/
def escapeDq (l : List Char) : List Char :=
  l.flatMap (fun c => if c = '"' then "&quot;".data else [c])

/-- Tag allow-list (spec.md §4.3: includes the image-map structures). -/
def allowedTags : List (List Char) :=
  ["a", "area", "b", "blockquote", "br", "code", "em", "h1", "h2", "h3", "img",
   "li", "map", "ol", "p", "pre", "span", "strong", "table", "tbody", "td",
   "th", "thead", "tr", "ul"].map String.data

/-- Attribute allow-list (fixed by the image-map and style tests). -/
def allowedAttrs : List (List Char) :=
  ["alt", "coords", "href", "name", "shape", "src", "style", "target",
   "title", "usemap"].map String.data

/-- Serialize one attribute; the value is single-quoted when it contains a
double quote and double-quoted otherwise. -/
def serAttr (a : List Char × List Char) : List Char :=
  ' ' :: a.1 ++ '=' :: (if '"' ∈ a.2 then squote :: a.2 ++ [squote] else '"' :: a.2 ++ ['"'])

def serTok : Tok → List Char
  | .ch c => [c]
  | .tagOpen n attrs => '<' :: (n ++ (attrs.map serAttr).flatten ++ ['>'])
  | .tagClose n => '<' :: '/' :: (n ++ ['>'])

def serializeToks (ts : List Tok) : List Char := (ts.map serTok).flatten

/-- Keep an allow-listed attribute; `style` values are CSS-normalized,
other values get their double quotes entity-escaped. -/
def filterAttr (a : List Char × List Char) : Option (List Char × List Char) :=
  if a.1 ∈ allowedAttrs then
    if a.1 = styleName then some (a.1, cssNormalize a.2)
    else some (a.1, escapeDq a.2)
  else none

def filterAttrs (attrs : List (List Char × List Char)) : List (List Char × List Char) :=
  attrs.filterMap filterAttr

/-- A disallowed open tag is re-rendered as entity-escaped text. -/
def escOpenTag (n : List Char) (attrs : List (List Char × List Char)) : List Tok :=
  (escText ('<' :: (n ++ (attrs.map serAttr).flatten ++ ['>']))).map Tok.ch

def escCloseTag (n : List Char) : List Tok :=
  (escText ('<' :: '/' :: (n ++ ['>']))).map Tok.ch

def filterTok : Tok → List Tok
  | .ch c => (escTextChar c).map Tok.ch
  | .tagOpen n attrs =>
      if n ∈ allowedTags then [.tagOpen n (filterAttrs attrs)] else escOpenTag n attrs
  | .tagClose n => if n ∈ allowedTags then [.tagClose n] else escCloseTag n

def filterToks (ts : List Tok) : List Tok := (ts.map filterTok).flatten

/-- Modelled from the spec: `sanitize_html` from the missing
`indico/util/string.py` (spec.md §4.3): parse → allow-list filter →
serialize. -/
def sanitize_html (s : String) : String :=
  String.mk (serializeToks (filterToks (tokenize s.data)))

/-! ### Canonical token streams

The filter only ever produces tokens of the following canonical shape, and
on canonical streams serialization and re-tokenization are mutually
inverse; idempotence of `sanitize_html` follows. -/

def headAlpha : List Char → Bool
  | [] => false
  | c :: _ => isAlphaA c

/-- Canonical attribute value: a `style` value is a `cssNormalize` fixed
point, any other value contains no double quote. -/
def CanonVal (n v : List Char) : Prop :=
  if n = styleName then cssNormalize v = v else '"' ∉ v

def CanonAttr (a : List Char × List Char) : Prop :=
  a.1 ∈ allowedAttrs ∧ CanonVal a.1 a.2

def CanonTok : Tok → Prop
  | .ch c => c ≠ '<' ∧ c ≠ '>'
  | .tagOpen n attrs => n ∈ allowedTags ∧ ∀ a ∈ attrs, CanonAttr a
  | .tagClose n => n ∈ allowedTags

theorem allowedStyles_facts :
    ∀ p ∈ allowedStyles,
      squote ∉ p ∧ '&' ∉ p ∧ ':' ∉ p ∧ ';' ∉ p ∧ trimWs p = p := by decide

theorem allowedTags_facts :
    ∀ n ∈ allowedTags,
      n ≠ [] ∧ (∀ c ∈ n, isNameChar c = true) ∧ lowerize n = n ∧ headAlpha n = true := by decide

theorem allowedAttrs_facts :
    ∀ n ∈ allowedAttrs,
      n ≠ [] ∧ (∀ c ∈ n, isAttrNameChar c = true) ∧ lowerize n = n := by decide

theorem attrNameChar_facts {c : Char} (h : isAttrNameChar c = true) :
    c ≠ '>' ∧ isWsB c = false ∧ c ≠ '/' ∧ c ≠ '=' ∧ c ≠ '"' ∧ c ≠ squote := by
  simp only [isAttrNameChar, Bool.not_eq_true', Bool.or_eq_false_iff,
    decide_eq_false_iff_not] at h
  tauto

theorem escText_chars (l : List Char) : ∀ c ∈ escText l, c ≠ '<' ∧ c ≠ '>' := by
  intro c hc
  simp only [escText, List.mem_flatMap] at hc
  obtain ⟨d, _, hcd⟩ := hc
  unfold escTextChar at hcd
  by_cases h1 : d = '<'
  · rw [if_pos h1, show "&lt;".data = ['&', 'l', 't', ';'] from rfl] at hcd
    fin_cases hcd <;> exact ⟨by decide, by decide⟩
  · rw [if_neg h1] at hcd
    by_cases h2 : d = '>'
    · rw [if_pos h2, show "&gt;".data = ['&', 'g', 't', ';'] from rfl] at hcd
      fin_cases hcd <;> exact ⟨by decide, by decide⟩
    · rw [if_neg h2] at hcd
      simp at hcd
      subst hcd
      exact ⟨h1, h2⟩

theorem escText_fix (l : List Char) (h : ∀ c ∈ l, c ≠ '<' ∧ c ≠ '>') : escText l = l := by
  induction l with
  | nil => rfl
  | cons c rest ih =>
      have hc := h c (List.mem_cons_self c rest)
      have hrest := ih (fun x hx => h x (List.mem_cons_of_mem c hx))
      simp only [escText, List.flatMap_cons] at hrest ⊢
      rw [hrest, escTextChar, if_neg hc.1, if_neg hc.2]
      rfl

theorem escapeDq_no_dq (l : List Char) : '"' ∉ escapeDq l := by
  intro hm
  simp only [escapeDq, List.mem_flatMap] at hm
  obtain ⟨d, _, hcd⟩ := hm
  by_cases h1 : d = '"'
  · rw [if_pos h1] at hcd
    exact absurd hcd (by decide)
  · rw [if_neg h1] at hcd
    simp at hcd
    exact h1 hcd.symm

theorem escapeDq_fix (l : List Char) (h : '"' ∉ l) : escapeDq l = l := by
  induction l with
  | nil => rfl
  | cons c rest ih =>
      have hc : c ≠ '"' := fun hc => h (hc ▸ List.mem_cons_self c rest)
      have hrest := ih (fun hm => h (List.mem_cons_of_mem c hm))
      simp only [escapeDq, List.flatMap_cons] at hrest ⊢
      rw [hrest, if_neg hc]
      rfl

theorem replaceQuotEnt_no_amp (l : List Char) (h : '&' ∉ l) : replaceQuotEnt l = l := by
  induction l with
  | nil => rfl
  | cons c rest ih =>
      have hc : c ≠ '&' := fun hc => h (hc ▸ List.mem_cons_self c rest)
      have hrest := ih (fun hm => h (List.mem_cons_of_mem c hm))
      rw [replaceQuotEnt.eq_def]
      split
      all_goals simp_all

theorem splitColon_closed (p v : List Char) (hp : ':' ∉ p) :
    splitColon (p ++ ':' :: v) = some (p, v) := by
  induction p with
  | nil => simp [splitColon]
  | cons c t ih =>
      have hc : c ≠ ':' := fun hc => hp (hc ▸ List.mem_cons_self c t)
      have ht : ':' ∉ t := fun hm => hp (List.mem_cons_of_mem c hm)
      simp [splitColon, hc, ih ht]

theorem splitColon_spec (d : List Char) :
    ∀ p v, splitColon d = some (p, v) → d = p ++ ':' :: v ∧ ':' ∉ p := by
  induction d with
  | nil => intro p v h; simp [splitColon] at h
  | cons c rest ih =>
      intro p v h
      by_cases hc : c = ':'
      · subst hc
        simp [splitColon] at h
        obtain ⟨rfl, rfl⟩ := h
        exact ⟨rfl, by simp⟩
      · simp only [splitColon, if_neg hc, Option.map_eq_some'] at h
        obtain ⟨⟨p', v'⟩, hsp, heq⟩ := h
        simp at heq
        obtain ⟨hp, hv⟩ := heq
        obtain ⟨hd, hnp⟩ := ih p' v' hsp
        subst hp hv hd
        refine ⟨by simp, ?_⟩
        intro hm
        rcases List.mem_cons.mp hm with h1 | h1
        · exact hc h1.symm
        · exact hnp h1

theorem splitOnChar_ne_nil (sep : Char) (l : List Char) : splitOnChar sep l ≠ [] := by
  cases l with
  | nil => simp [splitOnChar]
  | cons c rest =>
      by_cases hc : c = sep
      · simp [splitOnChar, hc]
      · simp only [splitOnChar, if_neg hc]
        cases hs : splitOnChar sep rest <;> simp

theorem splitOnChar_mem_no_sep (sep : Char) (l : List Char) :
    ∀ d ∈ splitOnChar sep l, sep ∉ d := by
  induction l with
  | nil => intro d hd; simp [splitOnChar] at hd; simp [hd]
  | cons c rest ih =>
      intro d hd
      by_cases hc : c = sep
      · rw [show splitOnChar sep (c :: rest) = [] :: splitOnChar sep rest by
            simp [splitOnChar, hc]] at hd
        rcases List.mem_cons.mp hd with rfl | hd'
        · simp
        · exact ih d hd'
      · rw [show splitOnChar sep (c :: rest)
              = match splitOnChar sep rest with
                | [] => [[c]]
                | p :: ps => (c :: p) :: ps by simp [splitOnChar, if_neg hc]] at hd
        cases hs : splitOnChar sep rest with
        | nil => exact absurd hs (splitOnChar_ne_nil sep rest)
        | cons p ps =>
            rw [hs] at hd
            rcases List.mem_cons.mp hd with rfl | hd'
            · intro hm
              rcases List.mem_cons.mp hm with h1 | h1
              · exact hc h1.symm
              · exact ih p (hs ▸ List.mem_cons_self p ps) h1
            · exact ih d (hs ▸ List.mem_cons_of_mem p hd')

theorem cssDecl_spec (d : List Char) (p v : List Char) (h : cssDecl d = some (p, v)) :
    p ∈ allowedStyles ∧ squote ∉ v ∧ '&' ∉ v ∧ (';' ∉ d → ';' ∉ v) := by
  cases hs : splitColon d with
  | none =>
      unfold cssDecl at h
      rw [hs] at h
      exact absurd h (by simp)
  | some pv =>
      obtain ⟨p₀, v₀⟩ := pv
      unfold cssDecl at h
      rw [hs] at h
      have h' : (if trimWs p₀ ∈ allowedStyles ∧ squote ∉ v₀ ∧ '&' ∉ v₀
          then some (trimWs p₀, v₀) else none) = some (p, v) := h
      by_cases hcond : trimWs p₀ ∈ allowedStyles ∧ squote ∉ v₀ ∧ '&' ∉ v₀
      · rw [if_pos hcond] at h'
        simp at h'
        obtain ⟨hp', hv'⟩ := h'
        obtain ⟨hd, _⟩ := splitColon_spec d p₀ v₀ hs
        subst hp'
        subst hv'
        refine ⟨hcond.1, hcond.2.1, hcond.2.2, ?_⟩
        intro hnd hm
        exact hnd (hd ▸ List.mem_append_right p₀ (List.mem_cons_of_mem ':' hm))
      · rw [if_neg hcond] at h'
        simp at h'

theorem cssDecl_closed (p v : List Char) (hp : p ∈ allowedStyles)
    (hv1 : squote ∉ v) (hv2 : '&' ∉ v) : cssDecl (p ++ ':' :: v) = some (p, v) := by
  obtain ⟨_, _, hcolon, _, htrim⟩ := allowedStyles_facts p hp
  unfold cssDecl
  rw [splitColon_closed p v hcolon]
  show (if trimWs p ∈ allowedStyles ∧ squote ∉ v ∧ '&' ∉ v
      then some (trimWs p, v) else none) = some (p, v)
  rw [htrim, if_pos ⟨hp, hv1, hv2⟩]

/-- Declarations surviving the filter of `cssNormalize`. -/
theorem cssNormalize_decls (v : List Char) :
    ∀ pu ∈ (splitOnChar ';' (replaceQuotEnt v)).filterMap cssDecl,
      pu.1 ∈ allowedStyles ∧ squote ∉ pu.2 ∧ '&' ∉ pu.2 ∧ ';' ∉ pu.2 := by
  intro pu hpu
  obtain ⟨d, hd, hdecl⟩ := List.mem_filterMap.mp hpu
  obtain ⟨h1, h2, h3, h4⟩ := cssDecl_spec d pu.1 pu.2 (by rwa [show (pu.1, pu.2) = pu from rfl])
  exact ⟨h1, h2, h3, h4 (splitOnChar_mem_no_sep ';' (replaceQuotEnt v) d hd)⟩

theorem cssNormalize_no_squote (v : List Char) : squote ∉ cssNormalize v := by
  intro hm
  unfold cssNormalize at hm
  rw [List.mem_flatten] at hm
  obtain ⟨piece, hpiece, hcm⟩ := hm
  obtain ⟨pu, hpu, rfl⟩ := List.mem_map.mp hpiece
  obtain ⟨h1, h2, _, _⟩ := cssNormalize_decls v pu hpu
  obtain ⟨hsq, _, _, _, _⟩ := allowedStyles_facts pu.1 h1
  unfold cssSer at hcm
  rcases List.mem_append.mp hcm with h | h
  · rcases List.mem_append.mp h with h | h
    · exact hsq h
    · rcases List.mem_cons.mp h with h | h
      · exact absurd h (by decide)
      · exact h2 h
  · rcases List.mem_cons.mp h with h | h
    · exact absurd h (by decide)
    · simp at h

theorem cssNormalize_no_amp (v : List Char) : '&' ∉ cssNormalize v := by
  intro hm
  unfold cssNormalize at hm
  rw [List.mem_flatten] at hm
  obtain ⟨piece, hpiece, hcm⟩ := hm
  obtain ⟨pu, hpu, rfl⟩ := List.mem_map.mp hpiece
  obtain ⟨h1, _, h3, _⟩ := cssNormalize_decls v pu hpu
  obtain ⟨_, hamp, _, _, _⟩ := allowedStyles_facts pu.1 h1
  unfold cssSer at hcm
  rcases List.mem_append.mp hcm with h | h
  · rcases List.mem_append.mp h with h | h
    · exact hamp h
    · rcases List.mem_cons.mp h with h | h
      · exact absurd h (by decide)
      · exact h3 h
  · rcases List.mem_cons.mp h with h | h
    · exact absurd h (by decide)
    · simp at h

theorem splitOnChar_flatten_cssSer (decls : List (List Char × List Char))
    (hd : ∀ pu ∈ decls, ';' ∉ pu.1 ∧ ';' ∉ pu.2) :
    splitOnChar ';' ((decls.map cssSer).flatten)
      = decls.map (fun pu => pu.1 ++ ':' :: pu.2) ++ [[]] := by
  induction decls with
  | nil => rfl
  | cons pu more ih =>
      have hpu := hd pu (List.mem_cons_self pu more)
      have hmore := ih (fun x hx => hd x (List.mem_cons_of_mem pu hx))
      have hsemi : ';' ∉ pu.1 ++ ':' :: pu.2 := by
        intro hm
        rcases List.mem_append.mp hm with h | h
        · exact hpu.1 h
        · rcases List.mem_cons.mp h with h | h
          · exact absurd h (by decide)
          · exact hpu.2 h
      rw [List.map_cons, List.flatten_cons,
          show cssSer pu = (pu.1 ++ ':' :: pu.2) ++ [';'] by simp [cssSer],
          List.append_assoc,
          show [';'] ++ (more.map cssSer).flatten = ';' :: (more.map cssSer).flatten from rfl,
          splitOnChar_append ';' _ _ hsemi, hmore]
      simp

theorem filterMap_self {α : Type} (f : α → Option α) (l : List α)
    (h : ∀ x ∈ l, f x = some x) : l.filterMap f = l := by
  induction l with
  | nil => rfl
  | cons a t ih =>
      rw [List.filterMap_cons, h a (List.mem_cons_self a t),
          ih (fun x hx => h x (List.mem_cons_of_mem a hx))]

theorem cssNormalize_idem (v : List Char) : cssNormalize (cssNormalize v) = cssNormalize v := by
  have hdecls := cssNormalize_decls v
  rw [show cssNormalize (cssNormalize v)
        = (((splitOnChar ';' (replaceQuotEnt (cssNormalize v))).filterMap cssDecl).map
            cssSer).flatten from rfl]
  rw [replaceQuotEnt_no_amp _ (cssNormalize_no_amp v)]
  rw [show cssNormalize v
        = (((splitOnChar ';' (replaceQuotEnt v)).filterMap cssDecl).map cssSer).flatten
      from rfl]
  rw [splitOnChar_flatten_cssSer _ (fun pu hpu => by
        obtain ⟨h1, _, _, h4⟩ := hdecls pu hpu
        obtain ⟨_, _, _, hsemi, _⟩ := allowedStyles_facts pu.1 h1
        exact ⟨hsemi, h4⟩)]
  rw [List.filterMap_append]
  rw [show List.filterMap cssDecl [([] : List Char)] = [] by rfl]
  rw [List.append_nil]
  congr 1
  rw [List.filterMap_map]
  rw [filterMap_self (cssDecl ∘ fun pv => pv.1 ++ ':' :: pv.2) _ (fun pu hpu => by
    obtain ⟨h1, h2, h3, _⟩ := hdecls pu hpu
    show cssDecl (pu.1 ++ ':' :: pu.2) = some pu
    rw [cssDecl_closed pu.1 pu.2 h1 h2 h3])]

theorem filterAttr_canon (a a' : List Char × List Char) (h : filterAttr a = some a') :
    CanonAttr a' := by
  unfold filterAttr at h
  by_cases h1 : a.1 ∈ allowedAttrs
  · rw [if_pos h1] at h
    by_cases h2 : a.1 = styleName
    · rw [if_pos h2] at h
      simp at h
      subst h
      refine ⟨h1, ?_⟩
      unfold CanonVal
      rw [if_pos h2]
      exact cssNormalize_idem a.2
    · rw [if_neg h2] at h
      simp at h
      subst h
      refine ⟨h1, ?_⟩
      unfold CanonVal
      rw [if_neg h2]
      exact escapeDq_no_dq a.2
  · rw [if_neg h1] at h
    simp at h

theorem mem_escToks {t' : Tok} {l : List Char} (h : t' ∈ (escText l).map Tok.ch) :
    CanonTok t' := by
  obtain ⟨c', hc', rfl⟩ := List.mem_map.mp h
  exact escText_chars l c' hc'

theorem filterTok_canon (t : Tok) : ∀ t' ∈ filterTok t, CanonTok t' := by
  intro t' ht'
  cases t with
  | ch c =>
      apply mem_escToks (l := [c])
      simpa [escText, filterTok] using ht'
  | tagOpen n attrs =>
      by_cases hn : n ∈ allowedTags
      · rw [show filterTok (.tagOpen n attrs) = [.tagOpen n (filterAttrs attrs)] by
            simp [filterTok, hn]] at ht'
        rw [List.mem_singleton.mp ht']
        refine ⟨hn, ?_⟩
        intro a ha
        obtain ⟨a₀, _, ha₀⟩ := List.mem_filterMap.mp ha
        exact filterAttr_canon a₀ a ha₀
      · rw [show filterTok (.tagOpen n attrs) = escOpenTag n attrs by
            simp [filterTok, hn]] at ht'
        exact mem_escToks ht'
  | tagClose n =>
      by_cases hn : n ∈ allowedTags
      · rw [show filterTok (.tagClose n) = [.tagClose n] by simp [filterTok, hn]] at ht'
        rw [List.mem_singleton.mp ht']
        exact hn
      · rw [show filterTok (.tagClose n) = escCloseTag n by simp [filterTok, hn]] at ht'
        exact mem_escToks ht'

theorem filterToks_canon (ts : List Tok) : ∀ t' ∈ filterToks ts, CanonTok t' := by
  intro t' ht'
  unfold filterToks at ht'
  rw [List.mem_flatten] at ht'
  obtain ⟨piece, hpiece, hmem⟩ := ht'
  obtain ⟨t, _, rfl⟩ := List.mem_map.mp hpiece
  exact filterTok_canon t t' hmem

theorem filterTok_fix (t : Tok) (h : CanonTok t) : filterTok t = [t] := by
  cases t with
  | ch c =>
      obtain ⟨h1, h2⟩ := h
      simp [filterTok, escTextChar, h1, h2]
  | tagOpen n attrs =>
      obtain ⟨hn, hattrs⟩ := h
      rw [show filterTok (.tagOpen n attrs) = [.tagOpen n (filterAttrs attrs)] by
          simp [filterTok, hn]]
      rw [show filterAttrs attrs = attrs from filterMap_self _ _ (fun a ha => by
        obtain ⟨h1, h2⟩ := hattrs a ha
        unfold filterAttr
        rw [if_pos h1]
        unfold CanonVal at h2
        by_cases hs : a.1 = styleName
        · rw [if_pos hs]
          rw [if_pos hs] at h2
          rw [h2]
        · rw [if_neg hs]
          rw [if_neg hs] at h2
          rw [escapeDq_fix a.2 h2])]
  | tagClose n =>
      have hn : n ∈ allowedTags := h
      simp [filterTok, hn]

theorem filterToks_fix (ts : List Tok) (h : ∀ t ∈ ts, CanonTok t) : filterToks ts = ts := by
  induction ts with
  | nil => rfl
  | cons t rest ih =>
      have ht := h t (List.mem_cons_self t rest)
      have hrest := ih (fun x hx => h x (List.mem_cons_of_mem t hx))
      unfold filterToks at hrest ⊢
      rw [List.map_cons, List.flatten_cons, filterTok_fix t ht, hrest]
      rfl

/-! ### Serialization of a canonical stream re-tokenizes to the same stream -/

theorem tw_append (p : Char → Bool) (l r : List Char) (hl : ∀ c ∈ l, p c = true)
    (hr : ∀ d t, r = d :: t → p d = false) :
    (l ++ r).takeWhile p = l ∧ (l ++ r).dropWhile p = r := by
  induction l with
  | nil =>
      simp only [List.nil_append]
      cases r with
      | nil => exact ⟨rfl, rfl⟩
      | cons d t =>
          have hd := hr d t rfl
          exact ⟨by rw [List.takeWhile_cons, hd]; rfl, by rw [List.dropWhile_cons]; simp [hd]⟩
  | cons c t ih =>
      have hc := hl c (List.mem_cons_self c t)
      obtain ⟨ih1, ih2⟩ := ih (fun x hx => hl x (List.mem_cons_of_mem c hx))
      constructor
      · rw [List.cons_append, List.takeWhile_cons, hc]
        simp [ih1]
      · rw [List.cons_append, List.dropWhile_cons]
        simp [hc, ih2]

theorem alphaA_facts {c : Char} (h : isAlphaA c = true) :
    c ≠ '/' ∧ c ≠ '<' ∧ c ≠ '>' := by
  have hb : (65 ≤ c.toNat ∧ c.toNat ≤ 90) ∨ (97 ≤ c.toNat ∧ c.toNat ≤ 122) := by
    rcases Bool.or_eq_true_iff.mp h with h1 | h1
    · exact Or.inl (upperA_bounds h1)
    · exact Or.inr (lowerA_bounds h1)
  refine ⟨fun hc => ?_, fun hc => ?_, fun hc => ?_⟩ <;> subst hc <;> revert hb <;> decide

theorem readQuoted_closed (q : Char) (v rest : List Char) (hv : q ∉ v) :
    ∃ h, readQuoted q (v ++ q :: rest) = some ⟨(v, rest), h⟩ := by
  induction v with
  | nil =>
      refine ⟨by simp, ?_⟩
      simp [readQuoted]
  | cons c t ih =>
      have hc : c ≠ q := fun hc => hv (hc ▸ List.mem_cons_self c t)
      obtain ⟨h', ih'⟩ := ih (fun hm => hv (List.mem_cons_of_mem c hm))
      have hstep : readQuoted q (c :: (t ++ q :: rest))
          = some ⟨(c :: t, rest), by simp at h' ⊢; omega⟩ := by
        simp only [readQuoted, if_neg hc]
        rw [ih']
      exact ⟨_, hstep⟩

theorem readAttrs_gt (rest : List Char) :
    readAttrs ('>' :: rest) = some ⟨([], rest), by simp⟩ := by
  rw [readAttrs]
  simp

theorem readAttrs_ws (c : Char) (rest : List Char) (hws : (isWsB c || decide (c = '/')) = true) :
    readAttrs (c :: rest) = match readAttrs rest with
      | some p => some ⟨(p.val.1, p.val.2), by have := p.property; simp at this ⊢; omega⟩
      | none => none := by
  have hne : ¬(c = '>') := by
    rcases Bool.or_eq_true_iff.mp hws with h | h
    · intro hc; subst hc; simp [isWsB] at h
    · intro hc; simp at h; subst h; simp at hc
  rw [readAttrs]
  simp only [if_neg hne, if_pos hws]
  cases hr : readAttrs rest with
  | none => rfl
  | some p => rfl

theorem tokenize_nil : tokenize [] = [] := by
  rw [tokenize]

theorem tokenize_cons_ne {c : Char} {l : List Char} (h : c ≠ '<') :
    tokenize (c :: l) = .ch c :: tokenize l := by
  rw [tokenize]
  simp [h]

theorem tokenize_lt {l : List Char} :
    tokenize ('<' :: l) = match readTag l with
      | some p => p.val.1 :: tokenize p.val.2
      | none => .ch '<' :: tokenize l := by
  rw [tokenize]
  simp
  cases hr : readTag l with
  | none => simp
  | some p => simp

theorem canonVal_dq_no_sq {n v : List Char} (h : CanonVal n v) (hdq : '"' ∈ v) :
    squote ∉ v := by
  unfold CanonVal at h
  by_cases hs : n = styleName
  · rw [if_pos hs] at h
    exact h ▸ cssNormalize_no_squote v
  · rw [if_neg hs] at h
    exact absurd hdq h

/-! ### Round trip: tokenizing serialized canonical tokens

`readAttrs_name_quoted`/`readAttrs_closed` show that `readAttrs` parses back
exactly the attribute list that `serAttr` printed (the delimiter quote never
occurs inside a canonical value, so `readQuoted` stops at the right place);
`readTag_open_closed`/`readTag_close_closed` lift this to whole tags, and
`tokenize_serialize` to token streams. -/

theorem readAttrs_name_quoted (c : Char) (rest : List Char) (q : Char) (v W : List Char)
    (hc : isAttrNameChar c = true)
    (hdrop : rest.dropWhile isAttrNameChar = '=' :: q :: (v ++ q :: W))
    (hdelim : (q = '"' || q = squote) = true) (hv : q ∉ v)
    (more : List (List Char × List Char)) (morerest : List Char)
    (hW : ∃ h, readAttrs W = some ⟨(more, morerest), h⟩) :
    ∃ h, readAttrs (c :: rest)
        = some ⟨((lowerize (c :: rest.takeWhile isAttrNameChar), v) :: more, morerest), h⟩ := by
  obtain ⟨hW', hWeq⟩ := hW
  obtain ⟨hgt, hws, hslash, _, _, _⟩ := attrNameChar_facts hc
  have hlen := congrArg List.length hdrop
  have hle := length_dropWhile_le isAttrNameChar rest
  simp [List.length_append] at hlen
  have hW'' : morerest.length < W.length := hW'
  have hproof : morerest.length < (c :: rest).length := by simp; omega
  have hcond : (isWsB c || decide (c = '/')) = false := by
    rw [hws, decide_eq_false hslash]
    rfl
  have hmain : readAttrs (c :: rest)
      = some ⟨((lowerize (c :: rest.takeWhile isAttrNameChar), v) :: more, morerest), hproof⟩ := by
    rw [readAttrs]
    rw [if_neg hgt, if_neg (by simp [hcond]), if_pos hc]
    split
    · next r2' heq =>
        rw [hdrop] at heq
        injection heq with heq1 heq2
        subst heq2
        split
        · next q2 r22 hr2 =>
            injection r22 with hra hrb
            subst hra
            subst hrb
            rw [if_pos hdelim]
            obtain ⟨hq', hQeq⟩ := readQuoted_closed q v W hv
            rw [hQeq]
            split
            · next v1 r3 h3 hsome =>
                injection hsome with hsub
                have hval := congrArg Subtype.val hsub
                injection hval with hv1 hr3
                subst hv1
                subst hr3
                split
                · next as r4 h4 hsome2 =>
                    rw [hWeq] at hsome2
                    injection hsome2 with hsub2
                    have hval2 := congrArg Subtype.val hsub2
                    injection hval2 with has hr4
                    subst has
                    subst hr4
                    rfl
                · next hnone2 =>
                    rw [hWeq] at hnone2
                    simp at hnone2
            · next hnone => simp at hnone
        · simp_all
    · next heq =>
        rw [hdrop] at heq
        exact absurd rfl (heq (q :: (v ++ q :: W)))
  exact ⟨hproof, hmain⟩



theorem readAttrs_closed (attrs : List (List Char × List Char)) (rest : List Char)
    (hA : ∀ a ∈ attrs, CanonAttr a) :
    ∃ h, readAttrs ((attrs.map serAttr).flatten ++ '>' :: rest)
        = some ⟨(attrs, rest), h⟩ := by
  induction attrs with
  | nil =>
      refine ⟨by simp, ?_⟩
      simpa using readAttrs_gt rest
  | cons a more ih =>
      obtain ⟨ha1, ha2⟩ := hA a (List.mem_cons_self a more)
      obtain ⟨ihh, ihmore⟩ := ih (fun x hx => hA x (List.mem_cons_of_mem a hx))
      obtain ⟨hne, hanc, hlow⟩ := allowedAttrs_facts a.1 ha1
      obtain ⟨a₀, atail, han⟩ : ∃ a₀ atail, a.1 = a₀ :: atail := by
        cases hv : a.1 with
        | nil => exact absurd hv hne
        | cons x y => exact ⟨x, y, rfl⟩
      set W := (more.map serAttr).flatten ++ '>' :: rest with hW
      set q : Char := if '"' ∈ a.2 then squote else '"' with hqdef
      have hdelim : (q = '"' || q = squote) = true := by
        by_cases hdq : '"' ∈ a.2 <;> simp [hqdef, hdq]
      have hqv : q ∉ a.2 := by
        by_cases hdq : '"' ∈ a.2
        · rw [hqdef]
          simp [hdq]
          exact canonVal_dq_no_sq ha2 hdq
        · rw [hqdef]
          simp [hdq]
      have hserattr : serAttr a = ' ' :: (a.1 ++ '=' :: (q :: a.2 ++ [q])) := by
        unfold serAttr
        by_cases hdq : '"' ∈ a.2 <;> simp [hqdef, hdq]
      have hflat : ((a :: more).map serAttr).flatten ++ '>' :: rest
          = ' ' :: (a₀ :: (atail ++ '=' :: q :: (a.2 ++ q :: W))) := by
        rw [List.map_cons, List.flatten_cons, hserattr, han]
        simp [List.append_assoc, hW]
      have htw := tw_append isAttrNameChar atail ('=' :: q :: (a.2 ++ q :: W))
        (fun x hx => hanc x (han ▸ List.mem_cons_of_mem a₀ hx))
        (fun d t hdt => by injection hdt with h1 h2; subst h1; decide)
      obtain ⟨hstep, hsteq⟩ := readAttrs_name_quoted a₀ (atail ++ '=' :: q :: (a.2 ++ q :: W))
        q a.2 W (hanc a₀ (han ▸ List.mem_cons_self a₀ atail)) htw.2 hdelim hqv
        more rest ⟨ihh, ihmore⟩
      have hname : lowerize (a₀ :: (atail ++ '=' :: q :: (a.2 ++ q :: W)).takeWhile
          isAttrNameChar) = a.1 := by
        rw [htw.1, ← han, hlow]
      rw [hname] at hsteq
      have hwslem := readAttrs_ws ' ' (a₀ :: (atail ++ '=' :: q :: (a.2 ++ q :: W))) (by decide)
      rw [hsteq] at hwslem
      rw [hflat]
      exact ⟨_, hwslem⟩


theorem readTag_open_core (n : List Char) (attrs : List (List Char × List Char))
    (rest : List Char) (hne : n ≠ []) (hnc : ∀ c ∈ n, isNameChar c = true)
    (hlow : lowerize n = n) (hhead : headAlpha n = true)
    (hA : ∀ a ∈ attrs, CanonAttr a) :
    ∃ h, readTag (n ++ ((attrs.map serAttr).flatten ++ '>' :: rest))
        = some ⟨(.tagOpen n attrs, rest), h⟩ := by
  obtain ⟨c₀, ntail, hn0⟩ : ∃ c₀ t, n = c₀ :: t := by
    cases hv : n with
    | nil => exact absurd hv hne
    | cons x y => exact ⟨x, y, rfl⟩
  have hc0a : isAlphaA c₀ = true := by
    have := hhead
    rw [hn0] at this
    exact this
  obtain ⟨hsl, hlt, hgt2⟩ := alphaA_facts hc0a
  have hheadAS : ∀ d t, ((attrs.map serAttr).flatten ++ '>' :: rest) = d :: t →
      isNameChar d = false := by
    intro d t hdt
    cases attrs with
    | nil =>
        simp at hdt
        rw [← hdt.1]
        decide
    | cons a as =>
        have hser : serAttr a = ' ' :: (a.1 ++ '=' ::
            (if '"' ∈ a.2 then squote :: a.2 ++ [squote] else '"' :: a.2 ++ ['"'])) := rfl
        rw [List.map_cons, List.flatten_cons, hser] at hdt
        simp only [List.cons_append, List.append_assoc] at hdt
        injection hdt with h1 h2
        rw [← h1]
        decide
  have htw := tw_append isNameChar ntail ((attrs.map serAttr).flatten ++ '>' :: rest)
    (fun x hx => hnc x (hn0 ▸ List.mem_cons_of_mem c₀ hx)) hheadAS
  obtain ⟨hra, hraeq⟩ := readAttrs_closed attrs rest hA
  have hshape : n ++ ((attrs.map serAttr).flatten ++ '>' :: rest)
      = c₀ :: (ntail ++ ((attrs.map serAttr).flatten ++ '>' :: rest)) := by
    rw [hn0]; simp
  rw [hshape]
  have hmain : readTag (c₀ :: (ntail ++ ((attrs.map serAttr).flatten ++ '>' :: rest)))
      = some ⟨(.tagOpen n attrs, rest), by
          simp at hra ⊢
          omega⟩ := by
    rw [readTag.eq_def]
    dsimp only []
    rw [if_neg hsl, if_pos hc0a]
    have hv3 : (readAttrs (List.dropWhile isNameChar
        (ntail ++ ((attrs.map serAttr).flatten ++ '>' :: rest)))).map Subtype.val
        = some (attrs, rest) := by
      rw [htw.2, hraeq]
      rfl
    split
    · next attrs1 r h hsome =>
        rw [hsome] at hv3
        simp only [Option.map_some'] at hv3
        injection hv3 with hv4
        injection hv4 with ha hr
        subst ha
        subst hr
        rw [htw.1, ← hn0, hlow]
    · next hnone =>
        rw [hnone] at hv3
        simp at hv3
  exact ⟨_, hmain⟩

theorem readTag_open_closed (n : List Char) (attrs : List (List Char × List Char))
    (rest : List Char) (hn : n ∈ allowedTags) (hA : ∀ a ∈ attrs, CanonAttr a) :
    ∃ h, readTag (n ++ ((attrs.map serAttr).flatten ++ '>' :: rest))
        = some ⟨(.tagOpen n attrs, rest), h⟩ := by
  obtain ⟨hne, hnc, hlow, hhead⟩ := allowedTags_facts n hn
  exact readTag_open_core n attrs rest hne hnc hlow hhead hA

theorem readTag_close_core (n : List Char) (rest : List Char) (hne : n ≠ [])
    (hnc : ∀ c ∈ n, isNameChar c = true) (hlow : lowerize n = n)
    (hhead : headAlpha n = true) :
    ∃ h, readTag ('/' :: (n ++ '>' :: rest)) = some ⟨(.tagClose n, rest), h⟩ := by
  obtain ⟨c₀, ntail, hn0⟩ : ∃ c₀ t, n = c₀ :: t := by
    cases hv : n with
    | nil => exact absurd hv hne
    | cons x y => exact ⟨x, y, rfl⟩
  have hc0a : isAlphaA c₀ = true := by
    have := hhead
    rw [hn0] at this
    exact this
  have htw := tw_append isNameChar ntail ('>' :: rest)
    (fun x hx => hnc x (hn0 ▸ List.mem_cons_of_mem c₀ hx))
    (fun d t hdt => by injection hdt with h1 h2; subst h1; decide)
  have hshape : n ++ '>' :: rest = c₀ :: (ntail ++ '>' :: rest) := by rw [hn0]; simp
  rw [hshape]
  have hdw : (List.dropWhile isNameChar (ntail ++ '>' :: rest)).dropWhile isWsB
      = '>' :: rest := by
    rw [htw.2, List.dropWhile_cons, if_neg (by decide)]
  have hmain : readTag ('/' :: (c₀ :: (ntail ++ '>' :: rest)))
      = some ⟨(.tagClose n, rest), by simp; omega⟩ := by
    rw [readTag]
    rw [if_pos rfl, if_pos hc0a]
    split
    · next heq =>
        rw [hdw] at heq
        injection heq with h1 h2
        subst h2
        rw [htw.1, ← hn0, hlow]
    · next heq =>
        rw [hdw] at heq
        exact absurd rfl (heq rest)
  exact ⟨_, hmain⟩

theorem readTag_close_closed (n : List Char) (rest : List Char) (hn : n ∈ allowedTags) :
    ∃ h, readTag ('/' :: (n ++ '>' :: rest)) = some ⟨(.tagClose n, rest), h⟩ := by
  obtain ⟨hne, hnc, hlow, hhead⟩ := allowedTags_facts n hn
  exact readTag_close_core n rest hne hnc hlow hhead

theorem tokenize_serialize (ts : List Tok) (h : ∀ t ∈ ts, CanonTok t) :
    tokenize (serializeToks ts) = ts := by
  induction ts with
  | nil => exact tokenize_nil
  | cons t rest ih =>
      have ht := h t (List.mem_cons_self t rest)
      have ihr := ih (fun x hx => h x (List.mem_cons_of_mem t hx))
      rw [show serializeToks (t :: rest) = serTok t ++ serializeToks rest by
            simp [serializeToks]]
      cases t with
      | ch c =>
          rw [show serTok (.ch c) ++ serializeToks rest = c :: serializeToks rest from rfl]
          rw [tokenize_cons_ne ht.1, ihr]
      | tagOpen n attrs =>
          obtain ⟨hn, hA⟩ := ht
          rw [show serTok (.tagOpen n attrs) ++ serializeToks rest
                = '<' :: (n ++ ((attrs.map serAttr).flatten ++ '>' :: serializeToks rest)) by
              simp [serTok]]
          rw [tokenize_lt]
          obtain ⟨hh, heq⟩ := readTag_open_closed n attrs (serializeToks rest) hn hA
          rw [heq]
          show Tok.tagOpen n attrs :: tokenize (serializeToks rest)
              = Tok.tagOpen n attrs :: rest
          rw [ihr]
      | tagClose n =>
          rw [show serTok (.tagClose n) ++ serializeToks rest
                = '<' :: ('/' :: (n ++ '>' :: serializeToks rest)) by simp [serTok]]
          rw [tokenize_lt]
          obtain ⟨hh, heq⟩ := readTag_close_closed n (serializeToks rest) ht
          rw [heq]
          show Tok.tagClose n :: tokenize (serializeToks rest) = Tok.tagClose n :: rest
          rw [ihr]

/-! ## `HTMLLinker` (auto-linking) -/

/-- Modelled from the spec: an HTML document is scanned as a node tree with
text runs, anchors and other elements (spec.md 4.5 / 9: parse, walk text
nodes, rebuild). -/
inductive Node where
  | text (t : List Char)
  | anchor (href : List Char) (children : List Node)
  | elem (tag : List Char) (children : List Node)

/-- Modelled from the spec: an auto-link rule is a pattern plus URL template
(spec.md 4.5).  `find t` returns the text before the first match, the
matched text, the capture group and the text after it; `find_spec` is the
contract of a regular-expression search: the pieces reassemble the input
and a match is nonempty. -/
structure LinkRule where
  find : List Char → Option (List Char × List Char × List Char × List Char)
  url : List Char → List Char
  find_spec : ∀ t pre m g post, find t = some (pre, m, g, post) →
      t = pre ++ m ++ post ∧ m ≠ []

/-- Modelled from the spec: replace every non-overlapping match in a text run
by an anchor whose `href` is the rule's template applied to the capture
group (spec.md 4.5).  Structural fuel bounds the number of matches; a match
consumes at least one character, so `t.length + 1` steps never run out
(`linkifyTextAux_stable`). -/
def linkifyTextAux (r : LinkRule) : Nat → List Char → List Node
  | 0, t => [.text t]
  | fuel+1, t =>
      match r.find t with
      | none => [.text t]
      | some (pre, m, g, post) =>
          .text pre :: .anchor (r.url g) [.text m] :: linkifyTextAux r fuel post

def linkifyText (r : LinkRule) (t : List Char) : List Node :=
  linkifyTextAux r (t.length + 1) t

mutual

/-- Modelled from the spec: apply one rule to a node — text runs are linkified,
matches already inside an `<a>` element are left untouched (the anchor is
returned verbatim, children unprocessed), other elements recurse. -/
def processNode (r : LinkRule) : Node → List Node
  | .text t => linkifyText r t
  | .anchor h ch => [.anchor h ch]
  | .elem tag ch => [.elem tag (processNodes r ch)]

def processNodes (r : LinkRule) : List Node → List Node
  | [] => []
  | n :: rest => processNode r n ++ processNodes r rest

end

/-- Modelled from the spec: `HTMLLinker.process` applies the ordered rule
list to the document's text nodes (spec.md 4.5). -/
def HTMLLinker_process (rules : List LinkRule) (ns : List Node) : List Node :=
  rules.foldl (fun acc r => processNodes r acc) ns

mutual

def serNode : Node → List Char
  | .text t => t
  | .anchor h ch =>
      "<a href=\"".data ++ h ++ "\">".data ++ serNodes ch ++ "</a>".data
  | .elem tag ch =>
      '<' :: tag ++ '>' :: serNodes ch ++ ('<' :: '/' :: tag ++ ['>'])

def serNodes : List Node → List Char
  | [] => []
  | n :: rest => serNode n ++ serNodes rest

end

mutual

/-- The anchors of a document, with their contents, in document order;
auto-linking must preserve them all (anchors do not nest, so anchor
children are not scanned). -/
def anchorsInNode : Node → List (List Char × List Node)
  | .text _ => []
  | .anchor h ch => [(h, ch)]
  | .elem _ ch => anchorsIn ch

def anchorsIn : List Node → List (List Char × List Node)
  | [] => []
  | n :: rest => anchorsInNode n ++ anchorsIn rest

end

/-- Modelled from the spec: the concrete search for the test rule
`#(\d+)` of `LINKER_RULES` (string_test.py:290-292) — the first `#`
followed by at least one digit, with the maximal digit run captured. -/
def findHash : List Char → Option (List Char × List Char × List Char × List Char)
  | [] => none
  | c :: t =>
      if c = '#' ∧ t.takeWhile isDigitA ≠ [] then
        some ([], c :: t.takeWhile isDigitA, t.takeWhile isDigitA, t.dropWhile isDigitA)
      else
        match findHash t with
        | none => none
        | some (pre, m, g, post) => some (c :: pre, m, g, post)

theorem findHash_spec : ∀ t pre m g post, findHash t = some (pre, m, g, post) →
    t = pre ++ m ++ post ∧ m ≠ [] := by
  intro t
  induction t with
  | nil =>
      intro pre m g post h
      simp [findHash] at h
  | cons c t ih =>
      intro pre m g post h
      rw [findHash] at h
      by_cases hc : c = '#' ∧ t.takeWhile isDigitA ≠ []
      · rw [if_pos hc] at h
        injection h with h'
        simp only [Prod.mk.injEq] at h'
        obtain ⟨h1, h2, h3, h4⟩ := h'
        subst h1
        subst h2
        subst h3
        subst h4
        refine ⟨?_, by simp [hc.2]⟩
        simp [List.takeWhile_append_dropWhile]
      · rw [if_neg hc] at h
        cases hf : findHash t with
        | none => rw [hf] at h; simp at h
        | some q =>
            obtain ⟨pre', m', g', post'⟩ := q
            rw [hf] at h
            injection h with h'
            simp only [Prod.mk.injEq] at h'
            obtain ⟨h1, h2, h3, h4⟩ := h'
            subst h1
            subst h2
            subst h3
            subst h4
            obtain ⟨ht, hm⟩ := ih pre' m' g' post' hf
            exact ⟨by rw [ht]; simp, hm⟩

/-- Modelled from the spec: the rule `{'regex': r'#(\d+)', 'url':
'https://gitclub.in/ticket/\x7b1\x7d'}` from the linker tests. -/
def hashRule : LinkRule where
  find := findHash
  url := fun g => "https://gitclub.in/ticket/".data ++ g
  find_spec := findHash_spec

example : processNodes hashRule [.text "#1234 and #123455".data]
    = [.text [], .anchor "https://gitclub.in/ticket/1234".data [.text "#1234".data],
       .text " and ".data,
       .anchor "https://gitclub.in/ticket/123455".data [.text "#123455".data],
       .text []] := rfl

example : serNodes (processNodes hashRule
      [.elem "p".data [.anchor "https://cern.ch".data [.text "#1234".data],
                       .text " and #1234".data]])
    = ("<p><a href=\"https://cern.ch\">#1234</a> and "
        ++ "<a href=\"https://gitclub.in/ticket/1234\">#1234</a></p>").data := by decide

/-- A match consumes at least one character, so any fuel above the text
length gives the same result: the fuel in `linkifyText` is immaterial. -/
theorem linkifyTextAux_stable (r : LinkRule) :
    ∀ f₁ f₂ t, t.length < f₁ → t.length < f₂ →
      linkifyTextAux r f₁ t = linkifyTextAux r f₂ t := by
  intro f₁
  induction f₁ with
  | zero => intro f₂ t h1 h2; omega
  | succ f ihf =>
      intro f₂ t h1 h2
      cases f₂ with
      | zero => omega
      | succ f₂ =>
          rw [linkifyTextAux, linkifyTextAux]
          cases hf : r.find t with
          | none => rfl
          | some q =>
              obtain ⟨pre, m, g, post⟩ := q
              obtain ⟨ht, hm⟩ := r.find_spec t pre m g post hf
              have hlen : t.length = pre.length + (m.length + post.length) := by
                rw [ht]; simp
              have hm1 : 0 < m.length := List.length_pos.mpr hm
              simp only [List.cons.injEq]
              refine ⟨trivial, trivial, ihf f₂ post (by omega) (by omega)⟩

theorem anchorsIn_append (xs ys : List Node) :
    anchorsIn (xs ++ ys) = anchorsIn xs ++ anchorsIn ys := by
  induction xs with
  | nil => rfl
  | cons n rest ih =>
      rw [List.cons_append, anchorsIn, anchorsIn, ih, List.append_assoc]

/-- Joint induction (over a size bound) showing that one linking pass keeps
every existing anchor, with its exact contents, in order. -/
theorem anchors_preserved_aux (r : LinkRule) :
    ∀ k, (∀ n : Node, sizeOf n ≤ k →
            (anchorsInNode n).Sublist (anchorsIn (processNode r n)))
       ∧ (∀ ns : List Node, sizeOf ns ≤ k →
            (anchorsIn ns).Sublist (anchorsIn (processNodes r ns))) := by
  intro k
  induction k with
  | zero =>
      constructor
      · intro n hn; cases n <;> simp at hn
      · intro ns hns
        cases ns with
        | nil => exact List.Sublist.refl _
        | cons n rest => simp at hns
  | succ k ih =>
      constructor
      · intro n hn
        cases n with
        | text t => exact List.nil_sublist _
        | anchor h ch => exact List.Sublist.refl _
        | elem tag ch =>
            have hsz : sizeOf ch ≤ k := by simp at hn; omega
            have := ih.2 ch hsz
            simp only [processNode, anchorsInNode, anchorsIn, List.append_nil]
            exact this
      · intro ns hns
        cases ns with
        | nil => exact List.Sublist.refl _
        | cons n rest =>
            have hsz1 : sizeOf n ≤ k := by simp at hns; omega
            have hsz2 : sizeOf rest ≤ k := by simp at hns; omega
            rw [show processNodes r (n :: rest)
                  = processNode r n ++ processNodes r rest from rfl]
            rw [anchorsIn_append]
            rw [show anchorsIn (n :: rest)
                  = anchorsInNode n ++ anchorsIn rest from rfl]
            exact List.Sublist.append (ih.1 n hsz1) (ih.2 rest hsz2)

theorem anchors_preserved_rules (rules : List LinkRule) :
    ∀ ns : List Node, (anchorsIn ns).Sublist (anchorsIn (HTMLLinker_process rules ns)) := by
  induction rules with
  | nil => intro ns; exact List.Sublist.refl _
  | cons r rs ih =>
      intro ns
      have h1 := (anchors_preserved_aux r (sizeOf ns)).2 ns (Nat.le_refl _)
      have h2 := ih (processNodes r ns)
      exact List.Sublist.trans h1 h2

theorem anchor_doc_unchanged (rules : List LinkRule) (h : List Char) (ch : List Node) :
    HTMLLinker_process rules [.anchor h ch] = [.anchor h ch] := by
  induction rules with
  | nil => rfl
  | cons r rs ih =>
      show HTMLLinker_process rs (processNodes r [.anchor h ch]) = _
      rw [show processNodes r [.anchor h ch] = [.anchor h ch] from rfl]
      exact ih

/-! ## `render_markdown` -/

/-- Modelled from the spec: block-level raw HTML elements recognised by the
Markdown layer (sufficient for the cited tests); a line opening one of
these is passed through as a raw block without paragraph wrapping. -/
def mdBlockTags : List (List Char) := ["script", "div", "table", "pre"].map String.data

/-- Modelled from the spec: a minimal block-level Markdown parse of one line
(spec.md 4.4): a leading `#` starts an ATX heading whose content is the
rest with leading spaces dropped; a line opening a block-level raw HTML
element passes through verbatim; anything else becomes a paragraph, with
inline raw HTML riding along in the text for the sanitizer to handle. -/
def mdParse (t : List Char) : List Node :=
  match t with
  | [] => []
  | '#' :: rest => [.elem "h1".data [.text (rest.dropWhile (fun c => c = ' '))]]
  | c :: rest =>
      if c = '<' ∧ rest.takeWhile isNameChar ∈ mdBlockTags then [.text (c :: rest)]
      else [.elem "p".data [.text (c :: rest)]]

/-- Modelled from the spec: `render_markdown` (spec.md 4.4): parse the
Markdown source, apply the auto-link extension's rules to the text runs of
the rendered tree (spec.md 4.5), serialize, and run the result through the
sanitizer before returning it. -/
def render_markdown (rules : List LinkRule) (text : String) : String :=
  sanitize_html (String.mk (serNodes (HTMLLinker_process rules (mdParse text.data))))

theorem serializeToks_cons (t : Tok) (ts : List Tok) :
    serializeToks (t :: ts) = serTok t ++ serializeToks ts := by
  simp [serializeToks]

theorem serializeToks_append (a b : List Tok) :
    serializeToks (a ++ b) = serializeToks a ++ serializeToks b := by
  simp [serializeToks]

theorem serializeToks_map_ch (l : List Char) : serializeToks (l.map .ch) = l := by
  induction l with
  | nil => rfl
  | cons c rest ih =>
      rw [List.map_cons, serializeToks_cons, ih]
      rfl

/-- Sanitizing the serialization of a canonical token stream returns it
unchanged. -/
theorem sanitize_serialized_fix (ts : List Tok) (h : ∀ t ∈ ts, CanonTok t) :
    sanitize_html (String.mk (serializeToks ts)) = String.mk (serializeToks ts) := by
  unfold sanitize_html
  rw [show (String.mk (serializeToks ts)).data = serializeToks ts from rfl]
  rw [tokenize_serialize ts h, filterToks_fix ts h]

/-- The token stream of a sanitized fragment is the filtered stream of the
input: nothing else survives sanitization. -/
theorem sanitize_html_tokens (x : String) :
    tokenize (sanitize_html x).data = filterToks (tokenize x.data) := by
  unfold sanitize_html
  rw [show (String.mk (serializeToks (filterToks (tokenize x.data)))).data
        = serializeToks (filterToks (tokenize x.data)) from rfl]
  exact tokenize_serialize _ (filterToks_canon _)

theorem findHash_none {t : List Char} (h : '#' ∉ t) : findHash t = none := by
  induction t with
  | nil => rfl
  | cons c rest ih =>
      rw [findHash]
      have hc : ¬(c = '#' ∧ rest.takeWhile isDigitA ≠ []) := by
        intro hcc
        obtain ⟨hc1, _⟩ := hcc
        subst hc1
        exact h (List.mem_cons_self _ _)
      rw [if_neg hc, ih (fun hm => h (List.mem_cons_of_mem c hm))]

theorem linkifyText_no_match (r : LinkRule) (t : List Char) (h : r.find t = none) :
    linkifyText r t = [.text t] := by
  unfold linkifyText
  rw [linkifyTextAux]
  rw [h]

/-- The three tokens of `<script>x</script>`: the names read back and the
attribute list is empty, even though `script` is not an allowed tag. -/
theorem tokenize_script :
    tokenize "<script>x</script>".data
      = [.tagOpen "script".data [], .ch 'x', .tagClose "script".data] := by
  obtain ⟨h1, he1⟩ := readTag_open_core "script".data [] "x</script>".data
    (by decide) (by decide) (by decide) (by decide) (by intro a ha; simp at ha)
  obtain ⟨h2, he2⟩ := readTag_close_core "script".data [] (by decide) (by decide)
    (by decide) (by decide)
  have harg : "script>x</script>".data
      = "script".data ++ ((([] : List (List Char × List Char)).map serAttr).flatten
          ++ '>' :: "x</script>".data) := by decide
  have harg2 : ['/', 's', 'c', 'r', 'i', 'p', 't', '>']
      = '/' :: ("script".data ++ '>' :: []) := by decide
  rw [show "<script>x</script>".data = '<' :: "script>x</script>".data from rfl]
  rw [tokenize_lt, harg, he1]
  show Tok.tagOpen "script".data [] :: tokenize "x</script>".data = _
  rw [tokenize_cons_ne (by decide)]
  rw [tokenize_lt, harg2, he2]
  show _ :: _ :: Tok.tagClose "script".data :: tokenize [] = _
  rw [tokenize_nil]

/-! ## `UpcomingEventsForm.validate_entries`
(`indico/modules/categories/forms.py:189-200`)

Direct translation.  Database lookups `Category.get(id, is_deleted=False)` /
`Event.get(id, is_deleted=False)` are passed in as oracle predicates; the
`weight` field of an entry is never read by the validator and is omitted.
A raised `ValidationError` is modelled as a `some` result carrying the
error; falling through the loop returns `none`. -/

inductive EntryError where
  | daysNotPositive
  | invalidType
  | invalidCategory (id : Int)
  | invalidEvent (id : Int)
  deriving DecidableEq

structure UpcomingEntry where
  type : String
  id : Int
  days : Int
  deriving DecidableEq

def validEntryTypes : List String := ["category", "category_tree", "event"]

def validateEntriesList (categoryExists eventExists : Int → Bool) :
    List UpcomingEntry → Option EntryError
  | [] => none
  | e :: rest =>
      if e.days < 0 then some .daysNotPositive
      else if e.type ∉ validEntryTypes then some .invalidType
      else if (e.type = "category" ∨ e.type = "category_tree") ∧ ¬categoryExists e.id then
        some (.invalidCategory e.id)
      else if e.type = "event" ∧ ¬eventExists e.id then some (.invalidEvent e.id)
      else validateEntriesList categoryExists eventExists rest

/-- `UpcomingEventsForm.validate_entries`: skips everything when the field
already has coercion errors, otherwise checks the entries in order. -/
def validate_entries (fieldErrors : Bool) (categoryExists eventExists : Int → Bool)
    (entries : List UpcomingEntry) : Option EntryError :=
  if fieldErrors then none
  else validateEntriesList categoryExists eventExists entries

/-! ## Claim theorems -/

/-- Claim C5: `sanitize_html` is idempotent.  Sanitization rebuilds the
fragment from its token stream keeping only allow-listed tags and
attributes, escaping everything else as entity text and normalizing
`style` values; a second pass tokenizes the serialized canonical stream
back to the same tokens (`tokenize_serialize`) and the filter fixes
canonical streams (`filterToks_fix`), so the output is a fixed point. -/
theorem c5_sanitize_html_idempotent :
    ∀ x : String, sanitize_html (sanitize_html x) = sanitize_html x := by
  intro x
  unfold sanitize_html
  rw [show (String.mk (serializeToks (filterToks (tokenize x.data)))).data
        = serializeToks (filterToks (tokenize x.data)) from rfl]
  rw [tokenize_serialize _ (filterToks_canon _)]
  rw [filterToks_fix _ (filterToks_canon _)]

/-- Claim C1, counterexample.  The claim asserts that an input containing no
email address is mapped to the empty string; the repository's own test
(`string_test.py:190`) fixes `sanitize_email('foo') == 'foo'`, and `"foo"`
contains no email address (it has no `@`), yet the result is not empty. -/
theorem c1_sanitize_email_counterexample :
    sanitize_email "foo" = "foo" ∧ "foo" ≠ "" ∧ '@' ∉ "foo".data := by
  refine ⟨by decide, by decide, by decide⟩

/-- Claim C1, amended: `sanitize_email` returns its input unchanged whenever
the input contains no `<` (so a no-email input like `'foo'` comes back as is,
and only the empty input yields the empty string); when the input contains an
angle-bracket-wrapped fragment, the content of the leftmost such fragment
(the first bracket-wrapped address) is returned. -/
theorem c1_sanitize_email_amended :
    (∀ s : String, '<' ∉ s.data → sanitize_email s = s) ∧
    (∀ pre g post : List Char, '<' ∉ pre → '>' ∉ g → g ≠ [] →
      sanitize_email (String.mk (pre ++ '<' :: g ++ '>' :: post)) = String.mk g) := by
  constructor
  · intro s h
    simp [sanitize_email, h]
  · intro pre g post hpre hg hne
    have hmem : '<' ∈ (String.mk (pre ++ '<' :: g ++ '>' :: post)).data := by
      simp
    simp only [sanitize_email, if_pos hmem]
    rw [findAngleGroup_closed pre g post hpre hg hne]

/-- Claim C1, witness for the amended theorem at the inputs of
`test_sanitize_email`. -/
theorem c1_sanitize_email_amended_witness :
    sanitize_email "foo" = "foo" ∧
    sanitize_email (String.mk ("foobar ".data ++ '<' :: "foo@bar.fb".data ++ '>' :: " asdf".data))
      = String.mk "foo@bar.fb".data := by
  refine ⟨c1_sanitize_email_amended.1 "foo" (by decide),
          c1_sanitize_email_amended.2 "foobar ".data "foo@bar.fb".data " asdf".data
            (by decide) (by decide) (by decide)⟩

/-- Claim C2, counterexample.  The claim makes the "url" → "URL" rule apply
"regardless of the segment's position", but `test_camelize_keys`
(`string_test.py:149-155`) fixes `camelize('url_download') == 'urlDownload'`:
a first-position "url" segment stays lowercase instead of becoming "URL". -/
theorem c2_camelize_url_counterexample :
    camelize "url_download" = "urlDownload" ∧ camelize "url_download" ≠ "URLDownload" := by
  exact ⟨by decide, by decide⟩

/-- Claim C2, amended: when camelizing underscore-joined segments, every
non-initial segment spelling "url" in any case orientation — at any
position, with any surrounding segments — is rendered as the literal
uppercase "URL" (later segments go through `camelizeSegment`), while a
first-position segment is kept verbatim (so an initial "url" spelling
stays as written). -/
theorem c2_camelize_url_amended (p₀ s : List Char) (pre post : List (List Char))
    (h0ne : p₀ ≠ []) (h0 : '_' ∉ p₀)
    (hpre : ∀ p ∈ pre, '_' ∉ p) (hpost : ∀ p ∈ post, '_' ∉ p)
    (hs : lowerize s = ['u', 'r', 'l']) :
    camelize (String.mk (joinChar '_' (p₀ :: (pre ++ s :: post))))
      = String.mk (p₀ ++ ((pre.map camelizeSegment).flatten
          ++ (['U', 'R', 'L'] ++ (post.map camelizeSegment).flatten)))
    ∧ camelize (String.mk (joinChar '_' (s :: post)))
      = String.mk (s ++ (post.map camelizeSegment).flatten) := by
  have hsnou : '_' ∉ s := by
    intro hm
    have h1 : toLowerA '_' ∈ lowerize s := List.mem_map_of_mem toLowerA hm
    rw [hs] at h1
    exact absurd h1 (by decide)
  have hsne : s ≠ [] := by
    intro he
    subst he
    simp [lowerize] at hs
  have hcs : camelizeSegment s = ['U', 'R', 'L'] := by
    unfold camelizeSegment
    rw [if_pos hs]
  constructor
  · have hA := camelizeList_join p₀ (pre ++ s :: post) h0ne (by
      intro q hq
      rcases List.mem_cons.mp hq with rfl | hq'
      · exact h0
      rcases List.mem_append.mp hq' with h1 | h2
      · exact hpre q h1
      rcases List.mem_cons.mp h2 with rfl | h3
      · exact hsnou
      · exact hpost q h3)
    have hlist : ((pre ++ s :: post).map camelizeSegment).flatten
        = (pre.map camelizeSegment).flatten
            ++ (['U', 'R', 'L'] ++ (post.map camelizeSegment).flatten) := by
      rw [List.map_append, List.flatten_append, List.map_cons, List.flatten_cons, hcs]
    rw [show camelize (String.mk (joinChar '_' (p₀ :: (pre ++ s :: post))))
          = String.mk (camelizeList (joinChar '_' (p₀ :: (pre ++ s :: post)))) from rfl,
        hA, hlist]
  · have hB := camelizeList_join s post hsne (by
      intro q hq
      rcases List.mem_cons.mp hq with rfl | hq'
      · exact hsnou
      · exact hpost q hq')
    rw [show camelize (String.mk (joinChar '_' (s :: post)))
          = String.mk (camelizeList (joinChar '_' (s :: post))) from rfl, hB]

/-- Claim C2, witness for the amended theorem: `'x_uRl_download'` camelizes
to `'xURLDownload'` and `'uRl_download'` keeps its first segment verbatim,
giving `'uRlDownload'`. -/
theorem c2_camelize_url_amended_witness :
    camelize (String.mk (joinChar '_' ("x".data :: ([] ++ "uRl".data :: ["download".data]))))
      = String.mk ("x".data ++ ((([] : List (List Char)).map camelizeSegment).flatten
          ++ (['U', 'R', 'L'] ++ (["download".data].map camelizeSegment).flatten)))
    ∧ camelize (String.mk (joinChar '_' ("uRl".data :: ["download".data])))
      = String.mk ("uRl".data ++ (["download".data].map camelizeSegment).flatten) :=
  c2_camelize_url_amended "x".data "uRl".data [] ["download".data]
    (by decide) (by decide) (by decide) (by decide) (by decide)

/-- Claim C8, counterexample.  The claim asserts `snakify(camelize(s)) == s`
for every conventional snake_case `s` with no leading-underscore ambiguity,
but the single-letter segments of `'foo_b_c'` camelize to the uppercase run
`'BC'`, which `snakify` treats as one unit (spec.md §4.2), giving
`'foo_bc'` back. -/
theorem c8_snakify_camelize_counterexample :
    snakify (camelize "foo_b_c") = "foo_bc" ∧ snakify (camelize "foo_b_c") ≠ "foo_b_c" := by
  exact ⟨by decide, by decide⟩

/-- Claim C8, amended: `snakify(camelize(s)) == s` holds for snake_case
strings whose first segment is a nonempty all-lowercase ASCII word and whose
later segments are all-lowercase ASCII words of at least two letters other
than the special-cased word "url". -/
theorem c8_snakify_camelize_amended (s₀ : List Char) (rest : List (List Char))
    (h₀ : s₀ ≠ []) (h₀l : ∀ c ∈ s₀, isLowerA c = true) (hr : ∀ r ∈ rest, goodSeg r) :
    snakify (camelize (String.mk (joinChar '_' (s₀ :: rest))))
      = String.mk (joinChar '_' (s₀ :: rest)) := by
  obtain ⟨b, t₀, rfl⟩ : ∃ b t₀, s₀ = b :: t₀ := by
    cases s₀ with
    | nil => exact absurd rfl h₀
    | cons b t => exact ⟨b, t, rfl⟩
  have hb : isLowerA b = true := h₀l b (List.mem_cons_self b t₀)
  have ht₀ : ∀ c ∈ t₀, isLowerA c = true := fun c hc => h₀l c (List.mem_cons_of_mem b hc)
  have hnou : ∀ s ∈ (b :: t₀) :: rest, '_' ∉ s := by
    intro s hs hus
    rcases List.mem_cons.mp hs with rfl | hs'
    · exact lower_ne_underscore (h₀l '_' hus) rfl
    · exact lower_ne_underscore ((hr s hs').2.1 '_' hus) rfl
  have hjoin := joinChar_cons_eq '_' (b :: t₀) rest
  have hsplit := splitOnChar_joinChar '_' ((b :: t₀) :: rest) (by simp) hnou
  -- the camelize pass
  have hcq : camelizeList (joinChar '_' ((b :: t₀) :: rest))
      = (b :: t₀) ++ (rest.map camelizeSegment).flatten := by
    rw [hjoin, List.cons_append,
        show camelizeList (b :: (t₀ ++ (rest.map ('_' :: ·)).flatten))
          = if b = '_' then '_' :: camelizeList (t₀ ++ (rest.map ('_' :: ·)).flatten)
            else camelizeParts (splitOnChar '_' (b :: (t₀ ++ (rest.map ('_' :: ·)).flatten)))
          from rfl,
        if_neg (lower_ne_underscore hb), ← List.cons_append, ← hjoin, hsplit]
    rfl
  -- every camelized later segment is a capitalized run
  have hsh : ∀ cs ∈ rest.map camelizeSegment, camShape cs := by
    intro cs hcs
    obtain ⟨r, hrmem, rfl⟩ := List.mem_map.mp hcs
    obtain ⟨a, t, hrat, htne, ha, htl, hce⟩ := camelizeSegment_of_good r (hr r hrmem)
    exact ⟨a, t, hce, ha, htne, htl⟩
  have hflat := lowerize_camFlat rest hr
  -- the snakify pass
  have hsq : snakifyList ((b :: t₀) ++ (rest.map camelizeSegment).flatten)
      = joinChar '_' ((b :: t₀) :: rest) := by
    rw [List.cons_append,
        show snakifyList (b :: (t₀ ++ (rest.map camelizeSegment).flatten))
          = lowerize (b :: snakeIns b (t₀ ++ (rest.map camelizeSegment).flatten)) from rfl,
        snakeIns_lower_run t₀ ht₀ _ b,
        snakeIns_camRun (rest.map camelizeSegment) (lastD b t₀) (lastD_lower ht₀ hb) hsh]
    have hgoal : lowerize (b :: (t₀ ++ ((rest.map camelizeSegment).map ('_' :: ·)).flatten))
        = (b :: t₀) ++ (rest.map ('_' :: ·)).flatten := by
      simp only [lowerize, List.map_cons, List.map_append]
      rw [show toLowerA b = b from toLowerA_of_lower b hb,
          show List.map toLowerA t₀ = lowerize t₀ from rfl, lowerize_of_lower t₀ ht₀,
          show List.map toLowerA (((rest.map camelizeSegment).map ('_' :: ·)).flatten)
            = lowerize (((rest.map camelizeSegment).map ('_' :: ·)).flatten) from rfl, hflat]
      simp
    rw [hgoal, ← hjoin]
  rw [show camelize (String.mk (joinChar '_' ((b :: t₀) :: rest)))
        = String.mk (camelizeList (joinChar '_' ((b :: t₀) :: rest))) from rfl, hcq]
  rw [show snakify (String.mk ((b :: t₀) ++ (rest.map camelizeSegment).flatten))
        = String.mk (snakifyList ((b :: t₀) ++ (rest.map camelizeSegment).flatten)) from rfl, hsq]

/-- Claim C8, witness for the amended theorem: the round-trip at
`'foo_bar'`. -/
theorem c8_snakify_camelize_amended_witness :
    snakify (camelize (String.mk (joinChar '_' (['f', 'o', 'o'] :: [['b', 'a', 'r']]))))
      = String.mk (joinChar '_' (['f', 'o', 'o'] :: [['b', 'a', 'r']])) :=
  c8_snakify_camelize_amended ['f', 'o', 'o'] [['b', 'a', 'r']] (by decide)
    (by decide) (by intro r hrm; rw [List.mem_singleton.mp hrm]; exact ⟨by decide, by decide, by decide⟩)

/-- Every character emitted by `collapseSeps` is either a hyphen or a
non-separator character of the input. -/
theorem collapseSeps_chars (l : List Char) :
    ∀ c ∈ collapseSeps l, c = '-' ∨ (c ∈ l ∧ isSepB c = false) := by
  induction l with
  | nil => intro c hc; simp [collapseSeps] at hc
  | cons a l' ih =>
      intro c hc
      cases l' with
      | nil =>
          by_cases ha : isSepB a = true
          · simp [collapseSeps, ha] at hc
            exact Or.inl hc
          · simp [collapseSeps, ha] at hc
            exact Or.inr ⟨by simp [hc], by simp [hc]; simpa using ha⟩
      | cons d rest =>
          by_cases had : (isSepB a && isSepB d) = true
          · rw [show collapseSeps (a :: d :: rest) = collapseSeps (d :: rest) by
                  simp [collapseSeps, had]] at hc
            rcases ih c hc with h | ⟨hmem, hsep⟩
            · exact Or.inl h
            · exact Or.inr ⟨List.mem_cons_of_mem a hmem, hsep⟩
          · rw [show collapseSeps (a :: d :: rest)
                  = (if isSepB a then '-' else a) :: collapseSeps (d :: rest) by
                  simp [collapseSeps, had]] at hc
            rcases List.mem_cons.mp hc with rfl | hc'
            · by_cases ha : isSepB a = true
              · simp [ha]
              · simp [ha]
            · rcases ih c hc' with h | ⟨hmem, hsep⟩
              · exact Or.inl h
              · exact Or.inr ⟨List.mem_cons_of_mem a hmem, hsep⟩

theorem mem_of_mem_stripHyphens {c : Char} {l : List Char} (h : c ∈ stripHyphens l) :
    c ∈ l := by
  unfold stripHyphens at h
  rw [List.mem_reverse] at h
  have h1 := (List.dropWhile_sublist (fun x => x = '-')).subset h
  rw [List.mem_reverse] at h1
  exact (List.dropWhile_sublist (fun x => x = '-')).subset h1

theorem alnum_toLowerA {c : Char} (h : isAlnumA c = true) :
    isLowerA (toLowerA c) = true ∨ isDigitA (toLowerA c) = true := by
  rcases Bool.or_eq_true_iff.mp h with ha | hd
  · rcases Bool.or_eq_true_iff.mp ha with hu | hl
    · exact Or.inl (isUpperA_toLowerA c hu)
    · rw [toLowerA_of_lower c hl]; exact Or.inl hl
  · exact Or.inr (isDigitA_toLowerA c hd)

/-- Claim C7: with case-folding enabled every character of a slug is a
lowercase ASCII letter, an ASCII digit or a hyphen (the `^[a-z0-9-]*$`
guarantee), and whenever the untruncated slug is longer than `maxlen`
(truncation occurs), the truncated slug has exactly `maxlen` characters. -/
theorem c7_slugify_maxlen_charset (parts : List String) (m : Nat) (mo : Option Nat)
    (h : m < (slugify parts true none).length) :
    (slugify parts true (some m)).length = m ∧
    (∀ c ∈ (slugify parts true mo).data, c = '-' ∨ isLowerA c = true ∨ isDigitA c = true) := by
  constructor
  · have hlen : (slugify parts true none).length
        = (slugifyCore (parts.map String.data) true).length := rfl
    show (String.mk ((slugifyCore (parts.map String.data) true).take m)).length = m
    show ((slugifyCore (parts.map String.data) true).take m).length = m
    rw [List.length_take]
    omega
  · intro c hc
    have hbase : c ∈ slugifyCore (parts.map String.data) true := by
      cases mo with
      | none => exact hc
      | some k => exact List.take_subset k _ hc
    unfold slugifyCore at hbase
    rw [if_pos rfl] at hbase
    simp only [lowerize, List.mem_map] at hbase
    obtain ⟨c', hc', rfl⟩ := hbase
    unfold slugBase at hc'
    have hc'' := mem_of_mem_stripHyphens hc'
    rcases collapseSeps_chars _ c' hc'' with rfl | ⟨hmem, hsep⟩
    · exact Or.inl (by decide)
    · have hkeep := (List.mem_filter.mp hmem).2
      rcases Bool.or_eq_true_iff.mp hkeep with halnum | hsepc
      · exact Or.inr (alnum_toLowerA halnum)
      · rw [hsepc] at hsep; exact absurd hsep (by simp)

/-- Claim C7, witness: `slugify('foo bar', maxlen=5)` truncates the 7-char
slug `'foo-bar'` to exactly 5 characters, all within `[a-z0-9-]`. -/
theorem c7_slugify_maxlen_charset_witness :
    (slugify ["foo bar"] true (some 5)).length = 5 ∧
    (∀ c ∈ (slugify ["foo bar"] true (some 5)).data,
      c = '-' ∨ isLowerA c = true ∨ isDigitA c = true) :=
  c7_slugify_maxlen_charset ["foo bar"] 5 (some 5) (by decide)

/-- Claim C9: on input whose whitespace is already collapsed and stripped,
`text_to_repr` returns the input unchanged when it is within `max_length`,
and otherwise returns the first `max_length` characters followed by the
three-character suffix `'...'`, for a total of `max_length + 3` characters
(exceeding `max_length`). -/
theorem c9_text_to_repr_truncation (s : String) (n : Nat)
    (hnorm : stripWs (collapseWs s.data) = s.data) :
    (s.data.length ≤ n → text_to_repr s (some n) = s) ∧
    (n < s.data.length →
      text_to_repr s (some n) = String.mk (s.data.take n ++ ['.', '.', '.']) ∧
      (text_to_repr s (some n)).data.length = n + 3) := by
  have hrepr : text_to_repr s (some n) = String.mk (truncateRepr n s.data) := by
    unfold text_to_repr
    rw [hnorm]
  constructor
  · intro hle
    rw [hrepr, show truncateRepr n s.data = s.data by unfold truncateRepr; rw [if_neg (by omega)]]
  · intro hgt
    have htr : truncateRepr n s.data = s.data.take n ++ ['.', '.', '.'] := by
      unfold truncateRepr; rw [if_pos (by omega)]
    refine ⟨by rw [hrepr, htr], ?_⟩
    rw [hrepr, htr]
    show (s.data.take n ++ ['.', '.', '.']).length = n + 3
    rw [List.length_append, List.length_take]
    simp only [List.length_cons, List.length_nil]
    omega

/-- Claim C9, witness at `'hello world'` with limits 20 (no truncation) and
4 (truncation to `'hell...'`, 7 = 4+3 characters). -/
theorem c9_text_to_repr_truncation_witness :
    text_to_repr "hello world" (some 20) = "hello world" ∧
    (text_to_repr "hello world" (some 4)
        = String.mk ("hello world".data.take 4 ++ ['.', '.', '.']) ∧
      (text_to_repr "hello world" (some 4)).data.length = 4 + 3) :=
  ⟨(c9_text_to_repr_truncation "hello world" 20 (by decide)).1 (by decide),
   (c9_text_to_repr_truncation "hello world" 4 (by decide)).2 (by decide)⟩

/-- Claim C10: `validate_entries` rejects an entry whose `days` is strictly
negative with the "'Days' must be a positive integer" error, accepts
`days == 0` (provided the remaining per-entry checks pass), and any entry
list containing an entry whose `type` is outside
`{category, category_tree, event}` always produces a `ValidationError`. -/
theorem c10_validate_entries_days_type :
    ∀ (ce ev : Int → Bool) (e : UpcomingEntry) (entries : List UpcomingEntry),
      (e.days < 0 → validate_entries false ce ev [e] = some .daysNotPositive) ∧
      (e.days = 0 → e.type ∈ validEntryTypes →
        ((e.type = "category" ∨ e.type = "category_tree") → ce e.id = true) →
        (e.type = "event" → ev e.id = true) →
        validate_entries false ce ev [e] = none) ∧
      ((∃ x ∈ entries, x.type ∉ validEntryTypes) →
        (validate_entries false ce ev entries).isSome = true) := by
  intro ce ev e entries
  refine ⟨?_, ?_, ?_⟩
  · intro h
    simp [validate_entries, validateEntriesList, h]
  · intro hd ht hc he
    have hd' : ¬(e.days < 0) := by omega
    have hcat : ¬((e.type = "category" ∨ e.type = "category_tree") ∧ ¬ce e.id = true) :=
      fun ⟨h1, h2⟩ => h2 (hc h1)
    have hev : ¬(e.type = "event" ∧ ¬ev e.id = true) := fun ⟨h1, h2⟩ => h2 (he h1)
    simp only [validate_entries, if_neg (by simp : ¬(false = true)), validateEntriesList]
    rw [if_neg hd', if_neg (by simp [ht]), if_neg hcat, if_neg hev]
  · intro hx
    induction entries with
    | nil => obtain ⟨x, hx, _⟩ := hx; exact absurd hx (List.not_mem_nil x)
    | cons a rest ih =>
        obtain ⟨x, hmem, hbad⟩ := hx
        simp only [validate_entries, if_neg (by simp : ¬(false = true)), validateEntriesList]
        by_cases h1 : a.days < 0
        · simp [h1]
        · rw [if_neg h1]
          by_cases h2 : a.type ∉ validEntryTypes
          · simp [h2]
          · rw [if_neg (by simpa using h2)]
            rcases List.mem_cons.mp hmem with rfl | hmem'
            · exact absurd hbad h2
            · by_cases h3 : (a.type = "category" ∨ a.type = "category_tree") ∧ ¬ce a.id
              · simp [h3]
              · rw [if_neg h3]
                by_cases h4 : a.type = "event" ∧ ¬ev a.id
                · simp [h4]
                · rw [if_neg h4]
                  have := ih ⟨x, hmem', hbad⟩
                  simpa [validate_entries] using this

/-- Claim C10, witness: concrete entries exercising all three conjuncts
(`days = -1` rejected with the positive-integer message, `days = 0` with a
valid existing category accepted, and a `'foo'`-typed entry rejected). -/
theorem c10_validate_entries_days_type_witness :
    validate_entries false (fun i => i = 1) (fun _ => false)
      [⟨"category", 1, -1⟩] = some .daysNotPositive ∧
    validate_entries false (fun i => i = 1) (fun _ => false)
      [⟨"category", 1, 0⟩] = none ∧
    (validate_entries false (fun i => i = 1) (fun _ => false)
      [⟨"foo", 1, 0⟩]).isSome = true := by
  refine ⟨(c10_validate_entries_days_type _ _ ⟨"category", 1, -1⟩ []).1 (by decide),
          (c10_validate_entries_days_type _ _ ⟨"category", 1, 0⟩ []).2.1 (by decide)
            (by decide) (fun _ => by decide) (fun h => by simp at h),
          (c10_validate_entries_days_type _ _ ⟨"foo", 1, 0⟩ _).2.2
            ⟨⟨"foo", 1, 0⟩, by simp, by decide⟩⟩

/-- Claim C6: for every rule list the linker keeps every anchor of the input
document, with its exact contents, in order (so matches inside an existing
`<a>` element are never relinked), and a document that is a single anchor is
returned entirely unchanged; on the repository's test rows the same rule
still links the matches occurring outside any anchor
(`string_test.py:295-305`). -/
theorem c6_html_linker_no_relink :
    (∀ (rules : List LinkRule) (ns : List Node),
        (anchorsIn ns).Sublist (anchorsIn (HTMLLinker_process rules ns)))
  ∧ (∀ (rules : List LinkRule) (h : List Char) (ch : List Node),
        HTMLLinker_process rules [.anchor h ch] = [.anchor h ch])
  ∧ serNodes (HTMLLinker_process [hashRule]
        [.elem "p".data [.anchor "https://cern.ch".data [.text "#1234".data],
                         .text " and #1234".data]])
      = ("<p><a href=\"https://cern.ch\">#1234</a> and "
          ++ "<a href=\"https://gitclub.in/ticket/1234\">#1234</a></p>").data
  ∧ serNodes (HTMLLinker_process [hashRule] [.text "#1234 and #123455".data])
      = ("<a href=\"https://gitclub.in/ticket/1234\">#1234</a> and "
          ++ "<a href=\"https://gitclub.in/ticket/123455\">#123455</a>").data := by
  refine ⟨anchors_preserved_rules, anchor_doc_unchanged, by decide, by decide⟩

/-- Claim C4: a line that is just `#` followed by digits renders as an
`<h1>` heading — the `#` is consumed by the ATX heading syntax before the
auto-link rule can see it, so the digits are not linked even with the
ticket rule installed (string_test.py:316). -/
theorem c4_render_markdown_heading (d : List Char) (hne : d ≠ [])
    (hd : ∀ c ∈ d, isDigitA c = true) :
    render_markdown [hashRule] (String.mk ('#' :: d))
      = String.mk ("<h1>".data ++ d ++ "</h1>".data) := by
  obtain ⟨c₀, dtail, hd0⟩ : ∃ a b, d = a :: b := by
    cases hv : d with
    | nil => exact absurd hv hne
    | cons a b => exact ⟨a, b, rfl⟩
  have hdrop : d.dropWhile (fun c => c = ' ') = d := by
    rw [hd0, List.dropWhile_cons, if_neg ?_]
    have hdig := hd c₀ (hd0 ▸ List.mem_cons_self c₀ dtail)
    intro hsp
    simp at hsp
    subst hsp
    exact absurd hdig (by decide)
  have hnohash : ('#' : Char) ∉ d := fun hm => absurd (hd '#' hm) (by decide)
  have hmd : mdParse ('#' :: d) = [.elem "h1".data [.text d]] := by
    rw [mdParse, hdrop]
  have hfind : hashRule.find d = none := findHash_none hnohash
  have hproc : HTMLLinker_process [hashRule] [Node.elem "h1".data [Node.text d]]
      = [Node.elem "h1".data [Node.text d]] := by
    show [Node.elem "h1".data (linkifyText hashRule d ++ [])] = _
    rw [linkifyText_no_match hashRule d hfind]
    rfl
  have hE1 : serNodes [Node.elem "h1".data [Node.text d]]
      = "<h1>".data ++ d ++ "</h1>".data := by
    rw [show ("<h1>".data : List Char) = ['<', 'h', '1', '>'] from rfl,
        show ("</h1>".data : List Char) = ['<', '/', 'h', '1', '>'] from rfl]
    show ('<' :: "h1".data ++ '>' :: serNodes [Node.text d]
        ++ ('<' :: '/' :: "h1".data ++ ['>'])) ++ [] = _
    rw [show ("h1".data : List Char) = ['h', '1'] from rfl,
        show serNodes [Node.text d] = d ++ [] from rfl]
    simp
  have hE2 : serializeToks (.tagOpen "h1".data [] :: (d.map .ch ++ [.tagClose "h1".data]))
      = "<h1>".data ++ d ++ "</h1>".data := by
    rw [serializeToks_cons, serializeToks_append, serializeToks_map_ch]
    rw [show serTok (Tok.tagOpen "h1".data []) = "<h1>".data from rfl]
    rw [show serializeToks [Tok.tagClose "h1".data] = "</h1>".data from rfl]
    exact (List.append_assoc "<h1>".data d "</h1>".data).symm
  have hcanon : ∀ t ∈ (Tok.tagOpen "h1".data []
      :: (d.map .ch ++ [Tok.tagClose "h1".data])), CanonTok t := by
    intro t ht
    rcases List.mem_cons.mp ht with h1 | h2
    · subst h1
      exact ⟨by decide, by intro a ha; simp at ha⟩
    rcases List.mem_append.mp h2 with h3 | h4
    · obtain ⟨c, hc, hct⟩ := List.mem_map.mp h3
      subst hct
      have hdig := hd c hc
      refine ⟨?_, ?_⟩ <;> intro he <;> subst he <;> exact absurd hdig (by decide)
    · simp at h4
      subst h4
      show "h1".data ∈ allowedTags
      decide
  show sanitize_html (String.mk (serNodes (HTMLLinker_process [hashRule]
      (mdParse (String.mk ('#' :: d)).data)))) = _
  rw [show (String.mk ('#' :: d)).data = '#' :: d from rfl]
  rw [hmd, hproc, hE1, ← hE2]
  exact sanitize_serialized_fix _ hcanon

/-- Claim C4, witness: rendering `#12345` with the ticket rule installed
yields `<h1>12345</h1>`, matching the test row. -/
theorem c4_render_markdown_heading_witness :
    render_markdown [hashRule] (String.mk ('#' :: "12345".data))
      = String.mk ("<h1>".data ++ "12345".data ++ "</h1>".data) :=
  c4_render_markdown_heading "12345".data (by decide) (by decide)

/-- Claim C3, counterexample.  The claim asserts that raw HTML embedded in
Markdown source always comes out escaped as literal text; but allow-listed
raw HTML is rendered as markup (the repository's own
`test_markdown_sanitize_css` keeps a raw `<img>`).  Here the raw `<em>`
markup of the source survives as markup in the output and nothing is
entity-escaped. -/
theorem c3_render_markdown_counterexample :
    render_markdown [] "<em>x</em>" = "<p><em>x</em></p>"
    ∧ List.IsInfix "<em>".data "<em>x</em>".data
    ∧ List.IsInfix "<em>".data "<p><em>x</em></p>".data
    ∧ '&' ∉ "<p><em>x</em></p>".data := by
  refine ⟨?_, ⟨[], "x</em>".data, by decide⟩, ⟨"<p>".data, "x</em></p>".data, by decide⟩,
    by decide⟩
  show sanitize_html (String.mk (serNodes (HTMLLinker_process [] (mdParse "<em>x</em>".data))))
      = _
  rw [show serNodes (HTMLLinker_process [] (mdParse "<em>x</em>".data))
        = serializeToks [Tok.tagOpen "p".data [], Tok.tagOpen "em".data [], Tok.ch 'x',
            Tok.tagClose "em".data, Tok.tagClose "p".data] from by decide]
  rw [sanitize_serialized_fix _ ?_]
  · decide
  · intro t ht
    fin_cases ht
    · exact ⟨by decide, by intro a ha; simp at ha⟩
    · exact ⟨by decide, by intro a ha; simp at ha⟩
    · exact ⟨by decide, by decide⟩
    · show "em".data ∈ allowedTags
      decide
    · show "p".data ∈ allowedTags
      decide

/-- Claim C3, amended: the sanitizer pass guarantees that every token of
`render_markdown` output is canonical — markup survives only for
allow-listed tags with filtered attributes, while any other raw HTML is
escaped into plain character tokens; concretely, a raw `<script>` block
comes out fully entity-escaped. -/
theorem c3_render_markdown_amended :
    (∀ (rules : List LinkRule) (s : String),
        (tokenize (render_markdown rules s).data).Forall CanonTok)
    ∧ render_markdown [] "<script>x</script>" = "&lt;script&gt;x&lt;/script&gt;" := by
  constructor
  · intro rules s
    rw [List.forall_iff_forall_mem]
    show ∀ t ∈ tokenize (sanitize_html (String.mk (serNodes
        (HTMLLinker_process rules (mdParse s.data))))).data, CanonTok t
    rw [sanitize_html_tokens]
    exact filterToks_canon _
  · show sanitize_html (String.mk (serNodes
        (HTMLLinker_process [] (mdParse "<script>x</script>".data)))) = _
    rw [show serNodes (HTMLLinker_process [] (mdParse "<script>x</script>".data))
          = "<script>x</script>".data from by decide]
    show String.mk (serializeToks (filterToks (tokenize "<script>x</script>".data))) = _
    rw [tokenize_script]
    rw [show serializeToks (filterToks [Tok.tagOpen "script".data [], Tok.ch 'x',
          Tok.tagClose "script".data]) = "&lt;script&gt;x&lt;/script&gt;".data from by decide]

end IndicoSpec
